import Mathlib

/-!
Verification of the link-maintenance tool (link_fix.py): a shallow embedding of
its three passes (external-link annotator, internal-link checker, ignore-file
normalizer) over `List Char` strings, together with theorems settling the
specification claims.

Strings are modelled as `List Char`.  Python's `urllib.parse` functions
(`urlsplit`, `parse_qsl`, `urlencode`, `urlunsplit`, `quote_plus`, `unquote`)
are embedded at the character level; percent-decoding goes through UTF-8 bytes
exactly as in CPython (with `errors="replace"`).  `pathlib.PurePosixPath` is
embedded as a flag for absoluteness plus a list of path segments, with the
usual pathlib normalization (drop empty and `.` segments, keep `..`).
`Path.exists` is modelled as membership of the lexically resolved path in a
given list of existing files (no symlinks).
-/

set_option maxRecDepth 20000

namespace LinkFix

abbrev Str := List Char

/-- Substring occurrence test, modelling Python's `in` operator on strings. -/
def occursIn (pat : Str) : Str → Bool
  | [] => pat.isPrefixOf []
  | c :: t => pat.isPrefixOf (c :: t) || occursIn pat t

/-- Does `s` end with `suf` (Python `str.endswith`). -/
def endsW (suf s : Str) : Bool := List.isPrefixOf suf.reverse s.reverse

def isAsciiUpper (c : Char) : Bool := 'A' ≤ c && c ≤ 'Z'

def isAsciiLower (c : Char) : Bool := 'a' ≤ c && c ≤ 'z'

def isAsciiAlpha (c : Char) : Bool := isAsciiUpper c || isAsciiLower c

def isAsciiDigit (c : Char) : Bool := '0' ≤ c && c ≤ '9'

/-- Python's notion of string whitespace (`str.strip`, regex class `\s`):
ASCII whitespace plus the Unicode space/separator characters. -/
def isPySpace (c : Char) : Bool :=
  c = ' ' || c = '\t' || c = '\n' || c = '\r' || c = '\x0b' || c = '\x0c' ||
  (0x1c ≤ c.toNat && c.toNat ≤ 0x1f) || c.toNat = 0x85 || c.toNat = 0xa0 ||
  c.toNat = 0x1680 || (0x2000 ≤ c.toNat && c.toNat ≤ 0x200a) ||
  c.toNat = 0x2028 || c.toNat = 0x2029 || c.toNat = 0x202f ||
  c.toNat = 0x205f || c.toNat = 0x3000

/-- Python `str.lstrip()` (no argument: strips whitespace). -/
def pyLstrip (s : Str) : Str := s.dropWhile isPySpace

/-- Python `str.rstrip()`. -/
def pyRstrip (s : Str) : Str := ((s.reverse).dropWhile isPySpace).reverse

/-- Python `str.strip()`. -/
def pyStrip (s : Str) : Str := pyRstrip (pyLstrip s)

/-- One character of Python `str.lower()` (modelled on the ASCII and Latin-1
ranges; other characters are left unchanged). -/
def pyLowerChar (c : Char) : Char :=
  if 'A' ≤ c ∧ c ≤ 'Z' then Char.ofNat (c.toNat + 32)
  else if 0xC0 ≤ c.toNat ∧ c.toNat ≤ 0xDE ∧ c.toNat ≠ 0xD7 then Char.ofNat (c.toNat + 32)
  else c

/-- Python `str.lower()`. -/
def pyLower (s : Str) : Str := s.map pyLowerChar

/-- Python `str.split(sep)` for a one-character separator: always returns at
least one piece; adjacent separators produce empty pieces. -/
def splitOnChar (sep : Char) : Str → List Str
  | [] => [[]]
  | c :: t =>
    if c = sep then [] :: splitOnChar sep t
    else
      match splitOnChar sep t with
      | [] => [[c]]
      | h :: r => (c :: h) :: r

/-- Python `str.split(sep, 1)` when the separator occurs: the text before the
first occurrence and the text after it. -/
def splitFirst (sep : Char) : Str → Option (Str × Str)
  | [] => none
  | c :: t =>
    if c = sep then some ([], t)
    else (splitFirst sep t).map (fun p => (c :: p.1, p.2))

/-- Lexicographic comparison of strings by code point (Python `<` on `str`). -/
def strLt : Str → Str → Bool
  | [], [] => false
  | [], _ :: _ => true
  | _ :: _, [] => false
  | a :: as, b :: bs => if a = b then strLt as bs else decide (a < b)

/-- Stable insertion of `x` into a list sorted ascending by `key`:
`x` goes before the first element whose key is not smaller, so earlier
elements with equal keys stay first. -/
def insertByKey {α : Type} (key : α → Str) (x : α) : List α → List α
  | [] => [x]
  | y :: ys => if strLt (key y) (key x) then y :: insertByKey key x ys
               else x :: y :: ys

/-- Python `sorted(l, key=key)`: a stable ascending sort (insertion sort is
stable, hence extensionally equal to CPython's stable sort). -/
def pySortBy {α : Type} (key : α → Str) : List α → List α
  | [] => []
  | x :: xs => insertByKey key x (pySortBy key xs)

/-! ## UTF-8 and percent-encoding (urllib.parse.quote_plus / unquote) -/

/-- The Unicode replacement character U+FFFD. -/
def fffd : Char := Char.ofNat 0xFFFD

/-- The UTF-8 encoding of one character, as a list of byte values. -/
def utf8EncodeChar (c : Char) : List Nat :=
  let n := c.toNat
  if n < 0x80 then [n]
  else if n < 0x800 then [0xC0 + n / 0x40, 0x80 + n % 0x40]
  else if n < 0x10000 then
    [0xE0 + n / 0x1000, 0x80 + (n / 0x40) % 0x40, 0x80 + n % 0x40]
  else
    [0xF0 + n / 0x40000, 0x80 + (n / 0x1000) % 0x40, 0x80 + (n / 0x40) % 0x40,
     0x80 + n % 0x40]

/-- UTF-8 decoding of a byte sequence with `errors="replace"`: malformed
input produces U+FFFD, consuming the maximal valid prefix of a sequence. -/
def utf8Decode : List Nat → Str
  | [] => []
  | b1 :: t1 =>
    if b1 < 0x80 then Char.ofNat b1 :: utf8Decode t1
    else if b1 < 0xC2 then fffd :: utf8Decode t1
    else if b1 < 0xE0 then
      match t1 with
      | [] => [fffd]
      | b2 :: t2 =>
        if 0x80 ≤ b2 ∧ b2 < 0xC0 then
          Char.ofNat ((b1 - 0xC0) * 0x40 + (b2 - 0x80)) :: utf8Decode t2
        else fffd :: utf8Decode (b2 :: t2)
    else if b1 < 0xF0 then
      match t1 with
      | [] => [fffd]
      | b2 :: t2 =>
        if (0x80 ≤ b2 ∧ b2 < 0xC0) ∧ (b1 = 0xE0 → 0xA0 ≤ b2) ∧
            (b1 = 0xED → b2 < 0xA0) then
          match t2 with
          | [] => [fffd]
          | b3 :: t3 =>
            if 0x80 ≤ b3 ∧ b3 < 0xC0 then
              Char.ofNat ((b1 - 0xE0) * 0x1000 + (b2 - 0x80) * 0x40 + (b3 - 0x80)) ::
                utf8Decode t3
            else fffd :: utf8Decode (b3 :: t3)
        else fffd :: utf8Decode (b2 :: t2)
    else if b1 < 0xF5 then
      match t1 with
      | [] => [fffd]
      | b2 :: t2 =>
        if (0x80 ≤ b2 ∧ b2 < 0xC0) ∧ (b1 = 0xF0 → 0x90 ≤ b2) ∧
            (b1 = 0xF4 → b2 < 0x90) then
          match t2 with
          | [] => [fffd]
          | b3 :: t3 =>
            if 0x80 ≤ b3 ∧ b3 < 0xC0 then
              match t3 with
              | [] => [fffd]
              | b4 :: t4 =>
                if 0x80 ≤ b4 ∧ b4 < 0xC0 then
                  Char.ofNat ((b1 - 0xF0) * 0x40000 + (b2 - 0x80) * 0x1000 +
                      (b3 - 0x80) * 0x40 + (b4 - 0x80)) :: utf8Decode t4
                else fffd :: utf8Decode (b4 :: t4)
            else fffd :: utf8Decode (b3 :: t3)
        else fffd :: utf8Decode (b2 :: t2)
    else fffd :: utf8Decode t1

/-- The value of one hex digit (`urllib`'s `_hexdig` table membership):
`0`-`9` are code points 48-57, `A`-`F` are 65-70, `a`-`f` are 97-102. -/
def hexDigitVal (c : Char) : Option Nat :=
  let n := c.toNat
  if 48 ≤ n ∧ n ≤ 57 then some (n - 48)
  else if 65 ≤ n ∧ n ≤ 70 then some (n - 55)
  else if 97 ≤ n ∧ n ≤ 102 then some (n - 87)
  else none

def hexDigitUpper (n : Nat) : Char :=
  if n < 10 then Char.ofNat ('0'.toNat + n) else Char.ofNat ('A'.toNat + n - 10)

/-- Tokenize a string for percent-decoding: `%XX` with two hex digits becomes
a byte, everything else stays a literal character. -/
def pdTokens : Str → List (Nat ⊕ Char)
  | [] => []
  | c :: rest =>
    if c = '%' then
      match rest with
      | c1 :: c2 :: r2 =>
        match hexDigitVal c1, hexDigitVal c2 with
        | some h1, some h2 => Sum.inl (16 * h1 + h2) :: pdTokens r2
        | _, _ => Sum.inr '%' :: pdTokens (c1 :: c2 :: r2)
      | [] => Sum.inr c :: pdTokens []
      | [c1] => Sum.inr c :: pdTokens [c1]
    else Sum.inr c :: pdTokens rest

/-- Decode token stream: maximal runs of bytes are UTF-8 decoded (with
replacement), literal characters pass through.  `acc` holds the current byte
run in reverse. -/
def groupDecodeAux (acc : List Nat) : List (Nat ⊕ Char) → Str
  | [] => utf8Decode acc.reverse
  | Sum.inl b :: ts => groupDecodeAux (b :: acc) ts
  | Sum.inr c :: ts => utf8Decode acc.reverse ++ c :: groupDecodeAux [] ts

/-- `urllib.parse.unquote` with UTF-8 and `errors="replace"`. -/
def unquote (s : Str) : Str := groupDecodeAux [] (pdTokens s)

/-- The `.replace("+", " ")` done by `parse_qsl` before unquoting. -/
def replacePlus (s : Str) : Str := s.map (fun c => if c = '+' then ' ' else c)

def unquotePlus (s : Str) : Str := unquote (replacePlus s)

/-- `urllib.parse`'s always-safe characters: ASCII alphanumerics and `_.-~`. -/
def alwaysSafeChar (c : Char) : Bool :=
  isAsciiAlpha c || isAsciiDigit c || c = '_' || c = '.' || c = '-' || c = '~'

def percentEncodeByte (b : Nat) : Str := ['%', hexDigitUpper (b / 16), hexDigitUpper (b % 16)]

def quotePlusChar (c : Char) : Str :=
  if alwaysSafeChar c then [c]
  else if c = ' ' then ['+']
  else ((utf8EncodeChar c).map percentEncodeByte).flatten

/-- `urllib.parse.quote_plus` with `safe=""`. -/
def quote_plus (s : Str) : Str := (s.map quotePlusChar).flatten


/-- The token stream that percent-decoding sees for one quote-plus-encoded
character, after the plus-to-space replacement. -/
def qpTokens (c : Char) : List (Nat ⊕ Char) :=
  if alwaysSafeChar c then [Sum.inr c]
  else if c = ' ' then [Sum.inr ' ']
  else (utf8EncodeChar c).map Sum.inl

/-- The UTF-8 encoding of a string, as a list of byte values. -/
def utf8Encode (w : Str) : List Nat := (w.map utf8EncodeChar).flatten

/-! ## urlsplit / urlunsplit / parse_qsl / urlencode -/

structure SplitResult where
  scheme : Str
  netloc : Str
  path : Str
  query : Str
  fragment : Str
deriving DecidableEq, Repr

/-- WHATWG C0-control-or-space characters, lstripped by `urlsplit`. -/
def isC0OrSpace (c : Char) : Bool := c.toNat ≤ 0x20

/-- The unsafe bytes removed everywhere by `urlsplit`: tab, CR, LF. -/
def isUnsafeUrlChar (c : Char) : Bool := c = '\t' || c = '\r' || c = '\n'

def schemeChar (c : Char) : Bool :=
  isAsciiAlpha c || isAsciiDigit c || c = '+' || c = '-' || c = '.'

/-- Scheme detection of `urlsplit`: a valid scheme before the first `:` is
split off and lowercased. -/
def splitSchemeOf (u : Str) : Str × Str :=
  match u.findIdx? (· = ':') with
  | none => ([], u)
  | some i =>
    let pre := u.take i
    if decide (0 < i) && (match pre with | c :: _ => isAsciiAlpha c | [] => false) &&
        pre.all schemeChar then
      (pyLower pre, u.drop (i + 1))
    else ([], u)

def netlocDelim (c : Char) : Bool := c = '/' || c = '?' || c = '#'

/-- `urllib.parse.urlsplit` (fragment allowed); `none` models the
`ValueError` raised on an unbalanced-bracket netloc. -/
def urlsplit (url0 : Str) : Option SplitResult :=
  let u1 := (url0.dropWhile isC0OrSpace).filter (fun c => !(isUnsafeUrlChar c))
  let sp := splitSchemeOf u1
  let scheme := sp.1
  let u2 := sp.2
  let hasNet := List.isPrefixOf ['/', '/'] u2
  let netloc := if hasNet then (u2.drop 2).takeWhile (fun c => !(netlocDelim c)) else []
  let u3 := if hasNet then (u2.drop 2).dropWhile (fun c => !(netlocDelim c)) else u2
  if hasNet && ((netloc.contains '[') ^^ (netloc.contains ']')) then none
  else
    let u4 := u3.takeWhile (· ≠ '#')
    let fragment := (u3.dropWhile (· ≠ '#')).drop 1
    let path := u4.takeWhile (· ≠ '?')
    let query := (u4.dropWhile (· ≠ '?')).drop 1
    some ⟨scheme, netloc, path, query, fragment⟩

/-- The schemes of `urllib.parse.uses_netloc` (the empty scheme is listed
there too, but `urlunsplit` tests it behind a non-emptiness check). -/
def uses_netloc : List Str :=
  ["ftp", "http", "gopher", "nntp", "telnet", "imap", "wais", "file", "mms",
   "https", "shttp", "snews", "prospero", "rtsp", "rtsps", "rtspu", "rsync",
   "svn", "svn+ssh", "sftp", "nfs", "git", "git+ssh", "ws", "wss"].map String.data

/-- `urllib.parse.urlunsplit`. -/
def urlunsplit (r : SplitResult) : Str :=
  let url1 := r.path
  let url2 :=
    if r.netloc ≠ [] ∨ (r.scheme ≠ [] ∧ r.scheme ∈ uses_netloc ∧ url1.take 2 ≠ ['/', '/']) then
      '/' :: '/' :: r.netloc ++
        (if url1 ≠ [] ∧ url1.head? ≠ some '/' then '/' :: url1 else url1)
    else url1
  let url3 := if r.scheme ≠ [] then r.scheme ++ ':' :: url2 else url2
  let url4 := if r.query ≠ [] then url3 ++ '?' :: r.query else url3
  if r.fragment ≠ [] then url4 ++ '#' :: r.fragment else url4

/-- `urllib.parse.parse_qsl(qs, keep_blank_values=True)`. -/
def parse_qsl (qs : Str) : List (Str × Str) :=
  if qs.isEmpty then []
  else
    (splitOnChar '&' qs).filterMap (fun nv =>
      if nv.isEmpty then none
      else
        match splitFirst '=' nv with
        | some p => some (unquotePlus p.1, unquotePlus p.2)
        | none => some (unquotePlus nv, []))

/-- `urllib.parse.urlencode(pairs, doseq=True)` for string pairs. -/
def urlencode (l : List (Str × Str)) : Str :=
  List.intercalate ['&'] (l.map (fun kv => quote_plus kv.1 ++ '=' :: quote_plus kv.2))

/-! ## strip_chatgpt_utm -/

def UTM_MARKER : Str := "utm_source=chatgpt.com".data

def isBadPair (kv : Str × Str) : Bool :=
  kv.1 = "utm_source".data && kv.2 = "chatgpt.com".data

/-- `strip_chatgpt_utm` from link_fix.py; `none` models a propagated
`ValueError` from `urlsplit`. -/
def strip_chatgpt_utm (url : Str) : Option Str :=
  if occursIn UTM_MARKER url = false then some url
  else
    match urlsplit url with
    | none => none
    | some r =>
      let filtered := (parse_qsl r.query).filter (fun kv => !(isBadPair kv))
      some (urlunsplit ⟨r.scheme, r.netloc, r.path, urlencode filtered, r.fragment⟩)

/-! ## Link annotator (append_target_blank_to_http_links) -/

def lbrace : Char := Char.ofNat 123

def rbrace : Char := Char.ofNat 125

def SKIP_URL_SUBSTRINGS : List Str := ["img.shields.io".data]

def ASSET_SUFFIXES : List Str :=
  [".png", ".svg", ".jpg", ".jpeg", ".gif", ".webp", ".pdf"].map String.data

/-- `strip_fragment_and_query` from link_fix.py. -/
def strip_fragment_and_query (url : Str) : Str :=
  pyStrip ((url.takeWhile (· ≠ '#')).takeWhile (· ≠ '?'))

/-- `is_asset_link` from link_fix.py. -/
def is_asset_link (url : Str) : Bool :=
  ASSET_SUFFIXES.any (fun suf => endsW suf (pyLower (strip_fragment_and_query url)))

/-- `should_skip_external` from link_fix.py. -/
def should_skip_external (url : Str) : Bool :=
  SKIP_URL_SUBSTRINGS.any (fun sub => occursIn sub url) || is_asset_link url

/-- Does the marker regex `target\s*=\s*("_blank"|_blank)` match at the start
of `s`? -/
def markerAt (s : Str) : Bool :=
  if List.isPrefixOf "target".data s then
    match (s.drop 6).dropWhile isPySpace with
    | '=' :: r2 =>
      let r3 := r2.dropWhile isPySpace
      List.isPrefixOf ('"' :: "_blank".data ++ ['"']) r3 ||
        List.isPrefixOf "_blank".data r3
    | _ => false
  else false

/-- `attrs_already_have_target_blank` from link_fix.py:
`re.search` of the marker pattern anywhere in the block. -/
def attrs_already_have_target_blank : Str → Bool
  | [] => false
  | c :: t => markerAt (c :: t) || attrs_already_have_target_blank t

/-- `normalize_to_brace_attrs` from link_fix.py. -/
def normalize_to_brace_attrs (existing : Str) : Str :=
  let inner := pyStrip (((pyStrip existing).drop 1).dropLast)
  if inner.head? = some ':' then pyStrip (inner.drop 1) else inner

/-- The inner replacement function `add_target_blank` of
`append_target_blank_to_http_links`, applied to one regex match
(text, url, optional attribute block). -/
def add_target_blank (text url : Str) (attrsOpt : Option Str) : Option Str :=
  match strip_chatgpt_utm url with
  | none => none
  | some u =>
    let link := '[' :: text ++ ']' :: '(' :: u ++ [')']
    if should_skip_external u then some (link ++ attrsOpt.getD [])
    else
      match attrsOpt with
      | some attrs =>
        if attrs_already_have_target_blank attrs then some (link ++ attrs)
        else
          let inner := normalize_to_brace_attrs attrs
          if inner.isEmpty then
            some (link ++ (lbrace :: ' ' :: "target=_blank".data ++ [' ', rbrace]))
          else
            some (link ++ (lbrace :: ' ' :: inner ++
              (' ' :: "target=_blank".data ++ [' ', rbrace])))
      | none => some (link ++ (lbrace :: "target=_blank".data ++ [rbrace]))

/-- Match of the optional attribute group `\{[^}]*\}` at the start of `s`:
returns the block and its length. -/
def matchAttrsLen (s : Str) : Option (Str × Nat) :=
  match s with
  | c :: t =>
    if c = lbrace ∧ t.contains rbrace then
      let inner := t.takeWhile (· ≠ rbrace)
      some (lbrace :: inner ++ [rbrace], inner.length + 2)
    else none
  | [] => none

/-- Match of `MARKDOWN_HTTP_LINK_PATTERN` (without the lookbehind) at the
start of `s`: returns (text, url, optional attrs, matched length). -/
def tryMatchHttp (s : Str) : Option (Str × Str × Option Str × Nat) :=
  match s with
  | '[' :: s1 =>
    let text := s1.takeWhile (· ≠ ']')
    let r1 := s1.dropWhile (· ≠ ']')
    if text.isEmpty then none
    else if List.isPrefixOf [']', '('] r1 then
      let s2 := r1.drop 2
      if List.isPrefixOf "http".data s2 then
        let s3 := s2.drop 4
        let urest := s3.takeWhile (· ≠ ')')
        let r2 := s3.dropWhile (· ≠ ')')
        if urest.isEmpty then none
        else if r2.head? = some ')' then
          let url := "http".data ++ urest
          let baseLen := 1 + text.length + 2 + 4 + urest.length + 1
          match matchAttrsLen (r2.drop 1) with
          | some p => some (text, url, some p.1, baseLen + p.2)
          | none => some (text, url, none, baseLen)
        else none
      else none
    else none
  | _ => none

/-- The scan of `re.sub(MARKDOWN_HTTP_LINK_PATTERN, add_target_blank, content)`:
left-to-right, non-overlapping matches, with the `(?<!\!)` lookbehind carried
as the previous character.  `none` models a propagated exception from
`strip_chatgpt_utm`. -/
def annotateAux (prev : Option Char) (fuel : Nat) (s : Str) : Option Str :=
  match fuel, s with
  | _, [] => some []
  | 0, s => some s
  | Nat.succ fuel, c :: t =>
    if c = '[' ∧ prev ≠ some '!' then
      match tryMatchHttp (c :: t) with
      | some (text, url, attrs, n) =>
        match add_target_blank text url attrs with
        | none => none
        | some rep =>
          (annotateAux (some (if attrs.isSome then rbrace else ')')) fuel
            (t.drop (n - 1))).map (fun r => rep ++ r)
      | none => (annotateAux (some c) fuel t).map (fun r => c :: r)
    else (annotateAux (some c) fuel t).map (fun r => c :: r)

/-- The pure content transformation of `append_target_blank_to_http_links`.
The fuel argument of the scanner only has to dominate the string length:
every step consumes at least one character. -/
def append_target_blank_text (content : Str) : Option Str :=
  annotateAux none content.length content

/-- Match of `MARKDOWN_LINK_PATTERN` (without the lookbehind) at the start of
`s`: returns (dest, matched length). -/
def tryMatchLink (s : Str) : Option (Str × Nat) :=
  match s with
  | '[' :: s1 =>
    let text := s1.takeWhile (· ≠ ']')
    let r1 := s1.dropWhile (· ≠ ']')
    if text.isEmpty then none
    else if List.isPrefixOf [']', '('] r1 then
      let s2 := r1.drop 2
      let dest := s2.takeWhile (· ≠ ')')
      let r2 := s2.dropWhile (· ≠ ')')
      if dest.isEmpty then none
      else if r2.head? = some ')' then
        some (dest, 1 + text.length + 2 + dest.length + 1)
      else none
    else none
  | _ => none

/-- The destinations collected by
`MARKDOWN_LINK_PATTERN.finditer(content)`, in order. -/
def linkDestsAux (prev : Option Char) (fuel : Nat) (s : Str) : List Str :=
  match fuel, s with
  | _, [] => []
  | 0, _ => []
  | Nat.succ fuel, c :: t =>
    if c = '[' ∧ prev ≠ some '!' then
      match tryMatchLink (c :: t) with
      | some p => p.1 :: linkDestsAux (some ')') fuel (t.drop (p.2 - 1))
      | none => linkDestsAux (some c) fuel t
    else linkDestsAux (some c) fuel t

def linkDests (content : Str) : List Str := linkDestsAux none content.length content

/-- The lookbehind state after scanning the characters of `pre`, starting from
state `prev`: the last character of `pre`, or `prev` when `pre` is empty. -/
def lastPrev (prev : Option Char) : Str → Option Char
  | [] => prev
  | c :: t => lastPrev (some c) t

/-! ## pathlib model and the internal-link checker -/

/-- A `pathlib.PurePosixPath`: absoluteness flag and segments.  Parsing
drops empty and `.` segments (pathlib normalization) and keeps `..`. -/
structure PyPath where
  absolute : Bool
  parts : List Str
deriving DecidableEq, Repr

def pyParsePath (s : Str) : PyPath :=
  ⟨decide (s.head? = some '/'),
   (splitOnChar '/' s).filter (fun p => !(p.isEmpty) && p ≠ ['.'])⟩

/-- `p / s` on paths (absolute right operand replaces the left). -/
def pyJoin (p : PyPath) (s : Str) : PyPath :=
  if (pyParsePath s).absolute then pyParsePath s
  else ⟨p.absolute, p.parts ++ (pyParsePath s).parts⟩

/-- `Path.parent`. -/
def pyParent (p : PyPath) : PyPath := ⟨p.absolute, p.parts.dropLast⟩

/-- `str(path)` for a `PurePosixPath`. -/
def pyStrPath (p : PyPath) : Str :=
  if p.parts.isEmpty then (if p.absolute then ['/'] else ['.'])
  else (if p.absolute then ['/'] else []) ++ List.intercalate ['/'] p.parts

/-- Lexical resolution of `..` segments (models filesystem resolution in the
absence of symlinks). -/
def normSegsAux (absolute : Bool) (stack : List Str) : List Str → List Str
  | [] => stack.reverse
  | seg :: rest =>
    if seg = "..".data then
      match stack with
      | top :: more =>
        if top = "..".data then normSegsAux absolute (seg :: top :: more) rest
        else normSegsAux absolute more rest
      | [] =>
        if absolute then normSegsAux absolute [] rest
        else normSegsAux absolute [seg] rest
    else normSegsAux absolute (seg :: stack) rest

def normPath (p : PyPath) : PyPath := ⟨p.absolute, normSegsAux p.absolute [] p.parts⟩

/-- `Path.exists`, modelled as membership of the resolved path in the list of
existing files (no symlinks; intermediate directories assumed traversable). -/
def fsExists (fs : List PyPath) (p : PyPath) : Bool := fs.contains (normPath p)

/-- The `clean` value in `candidates_for_quarto_source` before `.html`
stripping: fragment and query removed, whitespace stripped. -/
def cleanDest (link : Str) : Str :=
  pyStrip ((link.takeWhile (· ≠ '#')).takeWhile (· ≠ '?'))

/-- `clean` after the `.html` suffix strip. -/
def htmlStripped (link : Str) : Str :=
  let c := cleanDest link
  if endsW ".html".data c then c.take (c.length - 5) else c

/-- The `is_dir` test of `candidates_for_quarto_source`. -/
def isDirLink (link : Str) : Bool := endsW ['/'] (htmlStripped link)

/-- The `clean` value after the conditional `rstrip("/")` for directory
links. -/
def dirTrimmed (link : Str) : Str :=
  if isDirLink link then ((htmlStripped link).reverse.dropWhile (· = '/')).reverse
  else htmlStripped link

/-- The `base` path of `candidates_for_quarto_source`. -/
def baseOf (file_path : PyPath) (link : Str) (root : PyPath) : PyPath :=
  if (dirTrimmed link).head? = some '/' then
    pyJoin root ((dirTrimmed link).dropWhile (· = '/'))
  else pyJoin (pyParent file_path) (dirTrimmed link)

/-- `candidates_for_quarto_source` from link_fix.py. -/
def candidates_for_quarto_source (file_path : PyPath) (link : Str) (root : PyPath) :
    List PyPath :=
  if isDirLink link then
    [pyJoin (baseOf file_path link root) "index.qmd".data,
     pyJoin (baseOf file_path link root) "index.md".data]
  else
    [pyParsePath (pyStrPath (baseOf file_path link root) ++ ".qmd".data),
     pyParsePath (pyStrPath (baseOf file_path link root) ++ ".md".data),
     pyJoin (baseOf file_path link root) "index.qmd".data,
     pyJoin (baseOf file_path link root) "index.md".data]

/-- `is_templated_link` from link_fix.py. -/
def is_templated_link (dest : Str) : Bool :=
  let d := pyStrip dest
  List.isPrefixOf [lbrace, lbrace, '<'] d || List.isPrefixOf [lbrace, lbrace, '%'] d

/-- The literal `"{nc[k]}"` of the checker's explicit exception list. -/
def ncPlaceholder : Str := lbrace :: "nc[k]".data ++ [rbrace]

/-- The guard chain of the `check_internal_links` loop body applied to the
normalized link: `none` means the link is skipped or resolves, and
`some (link, cands)` means it is appended as broken. -/
def check_link_guards (fs : List PyPath) (file_path root : PyPath) (link : Str) :
    Option (Str × List PyPath) :=
  if is_templated_link link then none
  else if ["http://".data, "https://".data, "mailto:".data, ['#'], "tel:".data].any
      (fun p => List.isPrefixOf p link) then none
  else if link = ncPlaceholder then none
  else if SKIP_URL_SUBSTRINGS.any (fun sub => occursIn sub link) then none
  else if is_asset_link link then none
  else if occursIn "_news".data link then none
  else
    let cands := candidates_for_quarto_source file_path link root
    if cands.any (fsExists fs) then none
    else some (link, cands)

/-- The loop body of `check_internal_links` for one matched destination:
the outer `none` models a propagated exception from `strip_chatgpt_utm`. -/
def check_internal_link (fs : List PyPath) (file_path root : PyPath) (destRaw : Str) :
    Option (Option (Str × List PyPath)) :=
  (strip_chatgpt_utm (pyStrip destRaw)).map (check_link_guards fs file_path root)

/-- `check_internal_links` over a whole content string: destinations are the
`MARKDOWN_LINK_PATTERN` matches; broken ones are accumulated in order. -/
def check_internal_links_text (fs : List PyPath) (file_path root : PyPath)
    (content : Str) : Option (List (Str × List PyPath)) :=
  (linkDests content).foldlM
    (fun acc d => (check_internal_link fs file_path root d).map
      (fun r => acc ++ r.toList)) []

/-! ## Report writer -/

def reportFileName : Str := "broken_links.md".data

/-- `src_file.relative_to(repo_root).as_posix()` for a file under the root. -/
def relTo (p root : PyPath) : Str :=
  List.intercalate ['/'] (p.parts.drop root.parts.length)

/-- One `## In ...` group of the report. -/
def reportEntryText (repoEnv : Option Str) (server : Str) (root : PyPath)
    (e : PyPath × List (Str × List PyPath)) : Str :=
  let rel := relTo e.1 root
  (match repoEnv with
   | some repo =>
     "## In [".data ++ rel ++ "](".data ++ server ++ '/' :: repo ++
       "/edit/main/".data ++ rel ++ ")\n\n".data
   | none => "## In `".data ++ rel ++ "`\n\n".data) ++
  "The following links are broken:".data ++
  (e.2.map (fun it => '\n' :: "```sh\n".data ++ it.1 ++ "\n```\n".data)).flatten ++
  ['\n']

/-- The full report text: groups sorted by the string form of the source
file path. -/
def reportText (repoEnv : Option Str) (server : Str) (root : PyPath)
    (broken : List (PyPath × List (Str × List PyPath))) : Str :=
  ((pySortBy (fun e => pyStrPath e.1) broken).map
    (reportEntryText repoEnv server root)).flatten

/-- `write_broken_links_report` as a transformer of a name-indexed file
system: with no broken links the report file is removed, otherwise it is
written with the report text. -/
def write_broken_links_report (broken : List (PyPath × List (Str × List PyPath)))
    (repoEnv : Option Str) (server : Str) (root : PyPath)
    (fs : Str → Option Str) : Str → Option Str :=
  if broken.isEmpty then
    fun p => if p = reportFileName then none else fs p
  else
    fun p => if p = reportFileName then some (reportText repoEnv server root broken)
             else fs p

/-! ## Ignore-list normalizer (sort_lycheeignore_file) -/

/-- Python `str.splitlines` line terminators (after `read_text` has already
translated `\r\n` and `\r` to `\n`). -/
def lineTerminator (c : Char) : Bool :=
  c = '\n' || c = '\r' || c = '\x0b' || c = '\x0c' ||
  c.toNat = 0x1c || c.toNat = 0x1d || c.toNat = 0x1e || c.toNat = 0x85 ||
  c.toNat = 0x2028 || c.toNat = 0x2029

def pySplitlinesAux (acc : Str) : Str → List Str
  | [] => if acc.isEmpty then [] else [acc.reverse]
  | c :: rest =>
    if lineTerminator c then acc.reverse :: pySplitlinesAux [] rest
    else pySplitlinesAux (c :: acc) rest

/-- Python `str.splitlines()` on universal-newlines text: `read_text` has
already translated `\r\n` and `\r` to `\n`, so each terminator character
ends one line. -/
def pySplitlines (s : Str) : List Str := pySplitlinesAux [] s

/-- The classification loop of `sort_lycheeignore_file`: comment lines
(stripped form starts with `#`) are right-stripped and collected in order;
other non-blank lines are stripped and collected in order. -/
def classifyLines : List Str → List Str × List Str
  | [] => ([], [])
  | line :: rest =>
    if (pyStrip line).isEmpty then classifyLines rest
    else if (pyStrip line).head? = some '#' then
      (pyRstrip line :: (classifyLines rest).1, (classifyLines rest).2)
    else ((classifyLines rest).1, pyStrip line :: (classifyLines rest).2)

/-- The dedup loop of `sort_lycheeignore_file`: first-seen casing wins,
keyed by the lowercased entry. -/
def dedupByLowerAux (seen : List Str) : List Str → List Str
  | [] => []
  | e :: rest =>
    if seen.contains (pyLower e) then dedupByLowerAux seen rest
    else e :: dedupByLowerAux (pyLower e :: seen) rest

/-- The out_lines of `sort_lycheeignore_file`, from the comment and sorted
entry blocks. -/
def lycheeOutLines (cs ds : List Str) : List Str :=
  (if cs.isEmpty then [] else cs ++ [[]]) ++ ds

/-- The pure content transformation of `sort_lycheeignore_file`. -/
def sort_lycheeignore_text (content : Str) : Str :=
  pyRstrip (List.intercalate ['\n']
    (lycheeOutLines (classifyLines (pySplitlines content)).1
      (pySortBy pyLower
        (dedupByLowerAux [] (classifyLines (pySplitlines content)).2)))) ++ ['\n']

/-- Does `sort_lycheeignore_file` rewrite the file (its write-back is guarded
by `before != out_text`)? -/
def sort_lycheeignore_writes (content : Str) : Bool :=
  decide (sort_lycheeignore_text content ≠ content)

/-- A comment line of the ignore file: its stripped form starts with `#`. -/
def isCommentLine (line : Str) : Bool := (pyStrip line).head? = some '#'

/-- Case-insensitive deduplication keeping the first occurrence, phrased as
in the spec: keep the head, remove all later entries with the same lowercase
key. -/
def dedupKeepFirst : List Str → List Str
  | [] => []
  | x :: xs => x :: dedupKeepFirst (xs.filter (fun y => pyLower y ≠ pyLower x))
termination_by l => l.length
decreasing_by
  simp only [List.length_cons]
  exact Nat.lt_succ_of_le (List.length_filter_le _ _)

/-- The normalizer output exactly as claim C6 words it: the file's leading
comment lines preserved verbatim at the top, one blank line if any comments
exist, then all remaining non-blank lines deduplicated case-insensitively
(first casing kept) and sorted case-insensitively. -/
def claimC6Out (content : Str) : Str :=
  List.intercalate ['\n']
    ((if ((pySplitlines content).takeWhile isCommentLine).isEmpty then []
      else (pySplitlines content).takeWhile isCommentLine ++ [[]]) ++
     pySortBy pyLower (dedupByLowerAux []
       (((pySplitlines content).dropWhile isCommentLine).filter
         (fun l => !((pyStrip l).isEmpty))))) ++ ['\n']

/-- The normalizer output as the amended claim words it: all comment lines
anywhere in the file, right-stripped, in original order at the top; one blank
line if any comments exist; the remaining non-blank lines stripped,
deduplicated case-insensitively keeping the first casing, and sorted
case-insensitively; trailing whitespace trimmed and one final newline. -/
def specC6Out (content : Str) : Str :=
  pyRstrip (List.intercalate ['\n']
    ((if ((pySplitlines content).filter isCommentLine).isEmpty then []
      else ((pySplitlines content).filter isCommentLine).map pyRstrip ++ [[]]) ++
     pySortBy pyLower (dedupKeepFirst
       (((pySplitlines content).filter
           (fun l => !((pyStrip l).isEmpty) && !(isCommentLine l))).map pyStrip)))) ++
  ['\n']

/-- A well-formed path segment as produced by pathlib parsing: nonempty,
slash-free, and not `.`. -/
def sanePart (p : Str) : Bool := !(p.isEmpty) && !(p.contains '/') && p ≠ ['.']

def sanePath (p : PyPath) : Bool := p.parts.all sanePart

/-- The sample file path of the C2 example. -/
def exFilePath : PyPath := pyParsePath "docs/guide/page.md".data

/-- The sample content root of the C2 example (the working directory). -/
def exRoot : PyPath := pyParsePath ".".data

/-! # Theorems -/

/-- C8: if the aggregated broken-link map is empty, the report writer deletes
the report file (whether or not it exists), writes nothing, and leaves every
other file of the filesystem unchanged. -/
theorem write_report_empty_cleans (repoEnv : Option Str) (server : Str)
    (root : PyPath) (fs : Str → Option Str)
    (broken : List (PyPath × List (Str × List PyPath))) (h : broken = []) :
    write_broken_links_report broken repoEnv server root fs reportFileName = none ∧
    ∀ p : Str, p ≠ reportFileName →
      write_broken_links_report broken repoEnv server root fs p = fs p := by
  subst h
  refine ⟨by simp [write_broken_links_report], fun p hp => ?_⟩
  simp [write_broken_links_report, hp]

/-- Witness for C8: with zero broken links and a prior report file present,
the report file is deleted and the other file is untouched. -/
theorem write_report_empty_cleans_witness :
    (write_broken_links_report [] none "srv".data exRoot
        (fun p => if p = reportFileName then some "old".data else none)
        reportFileName = none ∧
      ∀ p : Str, p ≠ reportFileName →
        write_broken_links_report [] none "srv".data exRoot
          (fun p => if p = reportFileName then some "old".data else none) p =
          (fun p : Str => if p = reportFileName then some "old".data else none) p) :=
  write_report_empty_cleans none "srv".data exRoot
    (fun p => if p = reportFileName then some "old".data else none) [] rfl

/-- C10: the checker's hard-coded exception is substring-based: any checked
destination whose normalized link contains `_news` anywhere is skipped
(`some none`), never reported broken; in particular this holds for any
destination that itself contains `_news` and no utm marker. -/
theorem news_exception_skips (fs : List PyPath) (fp root : PyPath)
    (destRaw link : Str)
    (h1 : strip_chatgpt_utm (pyStrip destRaw) = some link)
    (h2 : occursIn "_news".data link = true) :
    check_internal_link fs fp root destRaw = some none ∧
    (occursIn UTM_MARKER (pyStrip destRaw) = false →
      occursIn "_news".data (pyStrip destRaw) = true →
      check_internal_link fs fp root destRaw = some none) := by
  have main : check_internal_link fs fp root destRaw = some none := by
    unfold check_internal_link
    rw [h1]
    refine congrArg some ?_
    simp [check_link_guards, h2]
  exact ⟨main, fun _ _ => main⟩

/-- Witness for C10 at the destination `pix_news/overview`. -/
theorem news_exception_skips_witness :
    check_internal_link [] exFilePath exRoot "pix_news/overview".data = some none ∧
    (occursIn UTM_MARKER (pyStrip "pix_news/overview".data) = false →
      occursIn "_news".data (pyStrip "pix_news/overview".data) = true →
      check_internal_link [] exFilePath exRoot "pix_news/overview".data = some none) :=
  news_exception_skips [] exFilePath exRoot "pix_news/overview".data
    "pix_news/overview".data (by decide) (by decide)

/-- C3: an external link whose attribute block already contains the marker
(in quoted or unquoted form, as recognized by
`attrs_already_have_target_blank`) keeps its attribute block byte-for-byte:
the replacement is the rebuilt link followed by the original block. -/
theorem marker_block_unchanged (text url attrs u : Str)
    (h1 : strip_chatgpt_utm url = some u)
    (h2 : attrs_already_have_target_blank attrs = true) :
    add_target_blank text url (some attrs) =
      some (('[' :: text ++ ']' :: '(' :: u ++ [')']) ++ attrs) := by
  unfold add_target_blank
  rw [h1]
  by_cases hs : should_skip_external u = true
  · simp [hs]
  · simp only [Bool.not_eq_true] at hs
    simp [hs, h2]

/-- Witness for C3: a quoted-form block and an unquoted-form block are both
left unchanged. -/
theorem marker_block_unchanged_witness :
    add_target_blank "x".data "https://a/b".data
        (some (lbrace :: "target=_blank".data ++ [rbrace])) =
      some (('[' :: "x".data ++ ']' :: '(' :: "https://a/b".data ++ [')']) ++
        (lbrace :: "target=_blank".data ++ [rbrace])) :=
  marker_block_unchanged "x".data "https://a/b".data
    (lbrace :: "target=_blank".data ++ [rbrace]) "https://a/b".data
    (by decide) (by decide)

/-- Counterexample to C4 as stated: the external link
`[x](https://img.shields.io/b)` has no attribute block and is skip-listed, so
the annotator adds no block at all (the output contains no brace). -/
theorem noattrs_counterexample :
    add_target_blank "x".data "https://img.shields.io/b".data none =
      some "[x](https://img.shields.io/b)".data ∧
    "[x](https://img.shields.io/b)".data.contains lbrace = false := by
  constructor
  · decide
  · decide

/-- C4 (amended): an external link with no attribute block whose stripped
destination is neither skip-listed nor asset-suffixed gets exactly one
appended attribute block `{target=_blank}`, and that block contains the
marker. -/
theorem noattrs_gets_block (text url u : Str)
    (h1 : strip_chatgpt_utm url = some u)
    (h2 : should_skip_external u = false) :
    add_target_blank text url none =
      some (('[' :: text ++ ']' :: '(' :: u ++ [')']) ++
        (lbrace :: "target=_blank".data ++ [rbrace])) ∧
    attrs_already_have_target_blank (lbrace :: "target=_blank".data ++ [rbrace]) =
      true := by
  refine ⟨?_, by decide⟩
  unfold add_target_blank
  rw [h1]
  simp [h2]

/-- Witness for C4 (amended) at `[x](https://a/b)`. -/
theorem noattrs_gets_block_witness :
    add_target_blank "x".data "https://a/b".data none =
      some (('[' :: "x".data ++ ']' :: '(' :: "https://a/b".data ++ [')']) ++
        (lbrace :: "target=_blank".data ++ [rbrace])) ∧
    attrs_already_have_target_blank (lbrace :: "target=_blank".data ++ [rbrace]) =
      true :=
  noattrs_gets_block "x".data "https://a/b".data "https://a/b".data
    (by decide) (by decide)

/-- C2: a destination surviving every guard is reported broken exactly when
no candidate exists; and for `[x](../other)` in `docs/guide/page.md` the four
candidates, resolved against the referencing file's directory, are
`docs/other.qmd`, `docs/other.md`, `docs/other/index.qmd`,
`docs/other/index.md`; with `docs/other.md` on disk the link is not reported,
and with an empty file system it is reported with exactly those candidates. -/
theorem internal_broken_iff (fs : List PyPath) (fp root : PyPath)
    (destRaw link : Str)
    (h1 : strip_chatgpt_utm (pyStrip destRaw) = some link)
    (h2 : is_templated_link link = false)
    (h3 : (["http://".data, "https://".data, "mailto:".data, ['#'], "tel:".data].any
        (fun p => List.isPrefixOf p link)) = false)
    (h4 : link ≠ ncPlaceholder)
    (h5 : (SKIP_URL_SUBSTRINGS.any (fun sub => occursIn sub link)) = false)
    (h6 : is_asset_link link = false)
    (h7 : occursIn "_news".data link = false) :
    (check_internal_link fs fp root destRaw =
        some (some (link, candidates_for_quarto_source fp link root)) ↔
      ∀ c ∈ candidates_for_quarto_source fp link root, fsExists fs c = false) ∧
    (candidates_for_quarto_source exFilePath "../other".data exRoot).map normPath =
      [pyParsePath "docs/other.qmd".data, pyParsePath "docs/other.md".data,
       pyParsePath "docs/other/index.qmd".data,
       pyParsePath "docs/other/index.md".data] ∧
    check_internal_link [pyParsePath "docs/other.md".data] exFilePath exRoot
      "../other".data = some none ∧
    check_internal_link [] exFilePath exRoot "../other".data =
      some (some ("../other".data,
        candidates_for_quarto_source exFilePath "../other".data exRoot)) := by
  refine ⟨?_, by decide, by decide, by decide⟩
  unfold check_internal_link
  rw [h1]
  simp only [Option.map_some']
  unfold check_link_guards
  simp only [h2, h3, h5, h6, h7, h4, Bool.false_eq_true, if_false]
  by_cases hA : (candidates_for_quarto_source fp link root).any (fsExists fs) = true
  · simp only [hA, if_true]
    constructor
    · intro h
      exact absurd h (by simp)
    · intro hall
      obtain ⟨c, hc, hex⟩ := List.any_eq_true.mp hA
      exact absurd (hall c hc) (by simp [hex])
  · have hA2 : (candidates_for_quarto_source fp link root).any (fsExists fs) = false :=
      Bool.eq_false_iff.mpr hA
    simp only [hA2, Bool.false_eq_true, if_false, true_iff]
    intro c hc
    exact Bool.eq_false_iff.mpr (List.any_eq_false.mp hA2 c hc)

/-- Witness for C2 at `[x](../other)` from `docs/guide/page.md` with an empty
file system. -/
theorem internal_broken_iff_witness :
    ((check_internal_link [] exFilePath exRoot "../other".data =
        some (some ("../other".data,
          candidates_for_quarto_source exFilePath "../other".data exRoot)) ↔
      ∀ c ∈ candidates_for_quarto_source exFilePath "../other".data exRoot,
        fsExists [] c = false) ∧
    (candidates_for_quarto_source exFilePath "../other".data exRoot).map normPath =
      [pyParsePath "docs/other.qmd".data, pyParsePath "docs/other.md".data,
       pyParsePath "docs/other/index.qmd".data,
       pyParsePath "docs/other/index.md".data] ∧
    check_internal_link [pyParsePath "docs/other.md".data] exFilePath exRoot
      "../other".data = some none ∧
    check_internal_link [] exFilePath exRoot "../other".data =
      some (some ("../other".data,
        candidates_for_quarto_source exFilePath "../other".data exRoot))) :=
  internal_broken_iff [] exFilePath exRoot "../other".data "../other".data
    (by decide) (by decide) (by decide) (by decide) (by decide) (by decide) (by decide)

theorem splitOnChar_ne_nil (sep : Char) (s : Str) : splitOnChar sep s ≠ [] := by
  induction s with
  | nil => simp [splitOnChar]
  | cons c t ih =>
    by_cases h : c = sep
    · simp [splitOnChar, h]
    · simp only [splitOnChar, if_neg h]
      cases hs : splitOnChar sep t with
      | nil => simp
      | cons a r => simp

/-- Pieces produced by `splitOnChar` never contain the separator. -/
theorem splitOnChar_parts_no_sep (sep : Char) (s : Str) :
    ∀ p ∈ splitOnChar sep s, ∀ x ∈ p, x ≠ sep := by
  induction s with
  | nil =>
    intro p hp
    simp [splitOnChar] at hp
    simp [hp]
  | cons c t ih =>
    intro p hp
    by_cases h : c = sep
    · simp only [splitOnChar, if_pos h] at hp
      rcases List.mem_cons.mp hp with hp | hp
      · simp [hp]
      · exact ih p hp
    · simp only [splitOnChar, if_neg h] at hp
      cases hs : splitOnChar sep t with
      | nil => exact absurd hs (splitOnChar_ne_nil sep t)
      | cons a r =>
        rw [hs] at hp
        rcases List.mem_cons.mp hp with hp | hp
        · subst hp
          intro x hx
          rcases List.mem_cons.mp hx with hx | hx
          · subst hx; exact h
          · exact ih a (by simp [hs]) x hx
        · exact ih p (by simp [hs, hp])

theorem splitOnChar_cons_of_ne (sep c : Char) (t : Str) (h : c ≠ sep)
    (h1 : Str) (r : List Str) (ht : splitOnChar sep t = h1 :: r) :
    splitOnChar sep (c :: t) = (c :: h1) :: r := by
  simp only [splitOnChar, if_neg h, ht]

theorem splitOnChar_no_sep (sep : Char) (a : Str) (ha : ∀ x ∈ a, x ≠ sep) :
    splitOnChar sep a = [a] := by
  induction a with
  | nil => rfl
  | cons c t ih =>
    exact splitOnChar_cons_of_ne sep c t (ha c (by simp)) t []
      (ih (fun x hx => ha x (by simp [hx])))

theorem splitOnChar_append_sep (sep : Char) (a b : Str) (ha : ∀ x ∈ a, x ≠ sep) :
    splitOnChar sep (a ++ sep :: b) = a :: splitOnChar sep b := by
  induction a with
  | nil => simp [splitOnChar]
  | cons c t ih =>
    have h2 := ih (fun x hx => ha x (by simp [hx]))
    have h3 := splitOnChar_cons_of_ne sep c (t ++ sep :: b) (ha c (by simp)) t
      (splitOnChar sep b) h2
    simpa using h3

theorem intercalate_cons_cons (s a b : Str) (l : List Str) :
    List.intercalate s (a :: b :: l) = a ++ s ++ List.intercalate s (b :: l) := by
  simp [List.intercalate, List.intersperse]

theorem intercalate_single (s a : Str) : List.intercalate s [a] = a := by
  simp [List.intercalate, List.intersperse]

theorem splitOnChar_intercalate (sep : Char) (ps : List Str)
    (h : ∀ p ∈ ps, ∀ x ∈ p, x ≠ sep) (hne : ps ≠ []) :
    splitOnChar sep (List.intercalate [sep] ps) = ps := by
  induction ps with
  | nil => exact absurd rfl hne
  | cons p q ih =>
    cases q with
    | nil =>
      rw [intercalate_single]
      exact splitOnChar_no_sep sep p (h p (by simp))
    | cons q2 r =>
      rw [intercalate_cons_cons]
      have : p ++ [sep] ++ List.intercalate [sep] (q2 :: r) =
          p ++ sep :: List.intercalate [sep] (q2 :: r) := by simp
      rw [this, splitOnChar_append_sep sep p _ (h p (by simp))]
      rw [ih (fun x hx => h x (by simp [hx])) (by simp)]

/-- `intercalate` absorbs a suffix into its last piece. -/
theorem intercalate_concat_append (s : Str) (ps : List Str) (lastp sfx : Str) :
    List.intercalate s (ps ++ [lastp]) ++ sfx =
      List.intercalate s (ps ++ [lastp ++ sfx]) := by
  induction ps with
  | nil => simp [intercalate_single]
  | cons a t ih =>
    have h1 : (a :: t) ++ [lastp] = a :: (t ++ [lastp]) := by simp
    have h2 : (a :: t) ++ [lastp ++ sfx] = a :: (t ++ [lastp ++ sfx]) := by simp
    rw [h1, h2]
    cases ht : t ++ [lastp] with
    | nil => exact absurd ht (by simp)
    | cons b l =>
      cases ht2 : t ++ [lastp ++ sfx] with
      | nil => exact absurd ht2 (by simp)
      | cons b2 l2 =>
        rw [intercalate_cons_cons, intercalate_cons_cons, ← ht, ← ht2]
        simp only [List.append_assoc]
        rw [ih]

theorem head?_intercalate_cons (s a : Str) (l : List Str) (ha : a ≠ []) :
    (List.intercalate s (a :: l)).head? = a.head? := by
  cases l with
  | nil => rw [intercalate_single]
  | cons b r =>
    rw [intercalate_cons_cons]
    cases a with
    | nil => exact absurd rfl ha
    | cons c t => simp

/-- Segments produced by `pyParsePath` are sane. -/
theorem pyParsePath_sane (s : Str) : sanePath (pyParsePath s) = true := by
  simp only [sanePath, pyParsePath, List.all_eq_true]
  intro p hp
  have hmem := List.mem_filter.mp hp
  have hnos := splitOnChar_parts_no_sep '/' s p hmem.1
  have hpred := hmem.2
  simp only [Bool.and_eq_true, Bool.not_eq_true'] at hpred
  simp only [sanePart, Bool.and_eq_true, Bool.not_eq_true']
  refine ⟨⟨hpred.1, ?_⟩, hpred.2⟩
  rw [← Bool.not_eq_true]
  intro hc
  exact hnos '/' (by simpa using hc) rfl

theorem sanePart_ne_nil (p : Str) (h : sanePart p = true) : p ≠ [] := by
  simp only [sanePart, Bool.and_eq_true, Bool.not_eq_true'] at h
  simpa using h.1.1

theorem sanePart_no_slash (p : Str) (h : sanePart p = true) : ∀ x ∈ p, x ≠ '/' := by
  simp only [sanePart, Bool.and_eq_true, Bool.not_eq_true'] at h
  intro x hx heq
  subst heq
  have : ('/' ∈ p) := hx
  have hc : p.contains '/' = true := by simpa using this
  rw [h.1.2] at hc
  cases hc

theorem pyJoin_sane (p : PyPath) (s : Str) (hp : sanePath p = true) :
    sanePath (pyJoin p s) = true := by
  have hq := pyParsePath_sane s
  unfold pyJoin
  split
  · exact hq
  · simp only [sanePath, List.all_append, Bool.and_eq_true]
    exact ⟨hp, hq⟩

theorem pyParent_sane (p : PyPath) (hp : sanePath p = true) :
    sanePath (pyParent p) = true := by
  simp only [sanePath, pyParent, List.all_eq_true] at hp ⊢
  intro x hx
  exact hp x (List.dropLast_subset p.parts hx)

theorem baseOf_sane (fp root : PyPath) (link : Str)
    (hf : sanePath fp = true) (hr : sanePath root = true) :
    sanePath (baseOf fp link root) = true := by
  unfold baseOf
  split
  · exact pyJoin_sane root _ hr
  · exact pyJoin_sane (pyParent fp) _ (pyParent_sane fp hf)

theorem filter_keep_sane (ps : List Str) (h : ∀ p ∈ ps, p ≠ [] ∧ p ≠ ['.']) :
    ps.filter (fun p => !(p.isEmpty) && p ≠ ['.']) = ps := by
  rw [List.filter_eq_self]
  intro p hp
  have := h p hp
  simp [this.1, this.2]

/-- Parsing `str(base) + sfx` (pathlib) when `base` has a last segment:
the suffix is absorbed into it. -/
theorem pyParse_strPath_concat (ab : Bool) (ps : List Str) (lastp sfx : Str)
    (hsane : (ps ++ [lastp]).all sanePart = true)
    (hsfx : ∀ x ∈ sfx, x ≠ '/')
    (hdot : lastp ++ sfx ≠ ['.']) :
    pyParsePath (pyStrPath ⟨ab, ps ++ [lastp]⟩ ++ sfx) =
      ⟨ab, ps ++ [lastp ++ sfx]⟩ := by
  have hsane2 : ∀ p ∈ ps ++ [lastp], sanePart p = true := List.all_eq_true.mp hsane
  have hlast : sanePart lastp = true := hsane2 lastp (by simp)
  have hps : ∀ p ∈ ps, sanePart p = true := fun p hp => hsane2 p (by simp [hp])
  have hnoslash : ∀ p ∈ ps ++ [lastp ++ sfx], ∀ x ∈ p, x ≠ '/' := by
    intro p hp
    rcases List.mem_append.mp hp with hp | hp
    · exact sanePart_no_slash p (hps p hp)
    · rw [List.mem_singleton.mp hp]
      intro x hx
      rcases List.mem_append.mp hx with hx | hx
      · exact sanePart_no_slash lastp hlast x hx
      · exact hsfx x hx
    -- each part is slash-free
  have hok : ∀ p ∈ ps ++ [lastp ++ sfx], p ≠ [] ∧ p ≠ ['.'] := by
    intro p hp
    rcases List.mem_append.mp hp with hp | hp
    · have h := hps p hp
      refine ⟨sanePart_ne_nil p h, ?_⟩
      simp only [sanePart, Bool.and_eq_true, Bool.not_eq_true'] at h
      simpa using h.2
    · rw [List.mem_singleton.mp hp]
      refine ⟨?_, hdot⟩
      have := sanePart_ne_nil lastp hlast
      simp [this]
  have hstr : pyStrPath ⟨ab, ps ++ [lastp]⟩ =
      (if ab then ['/'] else []) ++ List.intercalate ['/'] (ps ++ [lastp]) := by
    simp [pyStrPath]
  have hI : List.intercalate ['/'] (ps ++ [lastp]) ++ sfx =
      List.intercalate ['/'] (ps ++ [lastp ++ sfx]) :=
    intercalate_concat_append ['/'] ps lastp sfx
  have hsplitI : splitOnChar '/' (List.intercalate ['/'] (ps ++ [lastp ++ sfx])) =
      ps ++ [lastp ++ sfx] :=
    splitOnChar_intercalate '/' _ hnoslash (by simp)
  cases ab with
  | true =>
    rw [hstr]
    simp only [if_true, List.cons_append, List.nil_append, List.append_assoc, hI]
    unfold pyParsePath
    have hsplit : splitOnChar '/' ('/' :: List.intercalate ['/'] (ps ++ [lastp ++ sfx])) =
        [] :: (ps ++ [lastp ++ sfx]) := by
      simp [splitOnChar, hsplitI]
    rw [hsplit]
    simp only [List.head?_cons]
    refine congrArg₂ PyPath.mk (by decide) ?_
    rw [List.filter_cons]
    simp only [List.isEmpty_nil]
    exact filter_keep_sane _ hok
  | false =>
    rw [hstr]
    simp only [Bool.false_eq_true, if_false, List.nil_append, hI]
    unfold pyParsePath
    rw [hsplitI]
    have hhead : (List.intercalate ['/'] (ps ++ [lastp ++ sfx])).head? ≠ some '/' := by
      cases ps with
      | nil =>
        simp only [List.nil_append]
        rw [head?_intercalate_cons _ _ _ (hok (lastp ++ sfx) (by simp)).1]
        intro hh
        have hmem : '/' ∈ lastp ++ sfx := by
          cases hlf : lastp ++ sfx with
          | nil => rw [hlf] at hh; simp at hh
          | cons c t =>
            rw [hlf] at hh
            simp at hh
            simp [hh]
        exact hnoslash (lastp ++ sfx) (by simp) '/' hmem rfl
      | cons a t =>
        rw [List.cons_append,
          head?_intercalate_cons _ _ _ (sanePart_ne_nil a (hps a (by simp)))]
        intro hh
        have hmem : '/' ∈ a := by
          cases hla : a with
          | nil => rw [hla] at hh; simp at hh
          | cons c r =>
            rw [hla] at hh
            simp at hh
            simp [hh]
        exact sanePart_no_slash a (hps a (by simp)) '/' hmem rfl
    refine congrArg₂ PyPath.mk (by simp [hhead]) ?_
    exact filter_keep_sane _ hok

theorem pyJoin_index_qmd (b : PyPath) :
    pyJoin b "index.qmd".data = ⟨b.absolute, b.parts ++ ["index.qmd".data]⟩ := by
  have hq : pyParsePath "index.qmd".data =
      ⟨false, ["index.qmd".data]⟩ := by decide
  unfold pyJoin
  rw [hq]
  simp

theorem pyJoin_index_md (b : PyPath) :
    pyJoin b "index.md".data = ⟨b.absolute, b.parts ++ ["index.md".data]⟩ := by
  have hq : pyParsePath "index.md".data =
      ⟨false, ["index.md".data]⟩ := by decide
  unfold pyJoin
  rw [hq]
  simp

theorem filter_singleton_sane (p : Str) (h1 : p ≠ []) (h2 : p ≠ ['.']) :
    List.filter (fun q => !(q.isEmpty) && decide (q ≠ ['.'])) [p] = [p] := by
  have hp : p.isEmpty = false := by
    cases p with
    | nil => exact absurd rfl h1
    | cons c t => rfl
  simp [List.filter_cons, hp, h2]

/-- Parsing `str(base) + sfx` when `base` has no segments: the result is the
single segment `/sfx` (absolute) or `.sfx` (relative). -/
theorem pyParse_strPath_nil_concat (ab : Bool) (sfx : Str)
    (hsfx : ∀ x ∈ sfx, x ≠ '/') (hsne : sfx ≠ []) (hdot2 : sfx ≠ ['.']) :
    pyParsePath (pyStrPath ⟨ab, []⟩ ++ sfx) =
      (if ab then ⟨true, [sfx]⟩ else ⟨false, ['.' :: sfx]⟩) := by
  cases ab with
  | true =>
    have hsplit : splitOnChar '/' ('/' :: sfx) = [] :: [sfx] := by
      simp [splitOnChar, splitOnChar_no_sep '/' sfx hsfx]
    show pyParsePath ('/' :: sfx) = ⟨true, [sfx]⟩
    unfold pyParsePath
    rw [hsplit]
    refine congrArg₂ PyPath.mk (by rfl) ?_
    rw [List.filter_cons]
    simp only [List.isEmpty_nil, Bool.not_true, Bool.false_and,
      Bool.false_eq_true, if_false]
    exact filter_singleton_sane sfx hsne hdot2
  | false =>
    have hne2 : ('.' :: sfx) ≠ ['.'] := by
      intro hh
      have hln := congrArg List.length hh
      simp at hln
      exact hsne hln
    have hsplit : splitOnChar '/' ('.' :: sfx) = ['.' :: sfx] :=
      splitOnChar_no_sep '/' ('.' :: sfx) (by
        intro x hx
        rcases List.mem_cons.mp hx with hx | hx
        · subst hx; decide
        · exact hsfx x hx)
    show pyParsePath ('.' :: sfx) = ⟨false, ['.' :: sfx]⟩
    unfold pyParsePath
    rw [hsplit]
    refine congrArg₂ PyPath.mk (by rfl) ?_
    exact filter_singleton_sane ('.' :: sfx) (by simp) hne2

/-- A non-directory candidate `Path(str(base) + sfx)` never coincides with a
directory candidate `base / idx`. -/
theorem parse_strPath_concat_ne (b : PyPath) (hb : sanePath b = true)
    (sfx idx : Str) (hsfx : ∀ x ∈ sfx, x ≠ '/') (hsne : sfx ≠ [])
    (hdot2 : sfx ≠ ['.']) (h1 : sfx ≠ idx) (h2 : '.' :: sfx ≠ idx) :
    pyParsePath (pyStrPath b ++ sfx) ≠ ⟨b.absolute, b.parts ++ [idx]⟩ := by
  obtain ⟨ab, parts⟩ := b
  rcases List.eq_nil_or_concat parts with hnil | ⟨ps, lastp, hcat⟩
  · subst hnil
    rw [pyParse_strPath_nil_concat ab sfx hsfx hsne hdot2]
    cases ab with
    | true =>
      intro heq
      have hparts := congrArg PyPath.parts heq
      simp at hparts
      exact h1 hparts
    | false =>
      intro heq
      have hparts := congrArg PyPath.parts heq
      simp at hparts
      exact h2 hparts
  · rw [List.concat_eq_append] at hcat
    subst hcat
    intro heq
    have hlast : sanePart lastp = true := by
      have := List.all_eq_true.mp hb
      exact this lastp (by simp)
    have hlnn : lastp ≠ [] := sanePart_ne_nil lastp hlast
    have hdot : lastp ++ sfx ≠ ['.'] := by
      intro hh
      have hl := congrArg List.length hh
      have hp1 : 1 ≤ lastp.length := List.length_pos.mpr hlnn
      have hp2 : 1 ≤ sfx.length := List.length_pos.mpr hsne
      simp [List.length_append] at hl
      omega
    rw [pyParse_strPath_concat ab ps lastp sfx hb hsfx hdot] at heq
    have hparts := congrArg PyPath.parts heq
    simp only at hparts
    have hlen := congrArg List.length hparts
    simp [List.length_append] at hlen

/-- C5: a directory-style destination (trailing slash after normalization)
produces exactly the two candidates `base / index.qmd` and `base / index.md`,
and never the non-directory candidates `Path(str(base) + ".qmd")` or
`Path(str(base) + ".md")`. -/
theorem dir_link_two_candidates (fp root : PyPath) (link : Str)
    (hf : sanePath fp = true) (hr : sanePath root = true)
    (h : isDirLink link = true) :
    candidates_for_quarto_source fp link root =
      [pyJoin (baseOf fp link root) "index.qmd".data,
       pyJoin (baseOf fp link root) "index.md".data] ∧
    pyParsePath (pyStrPath (baseOf fp link root) ++ ".qmd".data) ∉
      candidates_for_quarto_source fp link root ∧
    pyParsePath (pyStrPath (baseOf fp link root) ++ ".md".data) ∉
      candidates_for_quarto_source fp link root := by
  have hb : sanePath (baseOf fp link root) = true := baseOf_sane fp root link hf hr
  have hlist : candidates_for_quarto_source fp link root =
      [pyJoin (baseOf fp link root) "index.qmd".data,
       pyJoin (baseOf fp link root) "index.md".data] := by
    unfold candidates_for_quarto_source
    rw [if_pos h]
  refine ⟨hlist, ?_, ?_⟩
  · rw [hlist]
    intro hmem
    rcases List.mem_cons.mp hmem with he | hmem2
    · rw [pyJoin_index_qmd] at he
      exact parse_strPath_concat_ne _ hb ".qmd".data "index.qmd".data
        (by decide) (by decide) (by decide) (by decide) (by decide) he
    · rcases List.mem_cons.mp hmem2 with he | h0
      · rw [pyJoin_index_md] at he
        exact parse_strPath_concat_ne _ hb ".qmd".data "index.md".data
          (by decide) (by decide) (by decide) (by decide) (by decide) he
      · simp at h0
  · rw [hlist]
    intro hmem
    rcases List.mem_cons.mp hmem with he | hmem2
    · rw [pyJoin_index_qmd] at he
      exact parse_strPath_concat_ne _ hb ".md".data "index.qmd".data
        (by decide) (by decide) (by decide) (by decide) (by decide) he
    · rcases List.mem_cons.mp hmem2 with he | h0
      · rw [pyJoin_index_md] at he
        exact parse_strPath_concat_ne _ hb ".md".data "index.md".data
          (by decide) (by decide) (by decide) (by decide) (by decide) he
      · simp at h0

theorem dropWhile_dropWhile (p : Char → Bool) (l : Str) :
    (l.dropWhile p).dropWhile p = l.dropWhile p := by
  induction l with
  | nil => rfl
  | cons c t ih =>
    by_cases h : p c = true
    · simp [List.dropWhile_cons, h, ih]
    · simp [List.dropWhile_cons, h]

theorem dropWhile_head_false (p : Char → Bool) (l : Str) (c : Char) (t : Str)
    (h : l.dropWhile p = c :: t) : p c = false := by
  induction l with
  | nil => simp [List.dropWhile] at h
  | cons a r ih =>
    by_cases ha : p a = true
    · rw [List.dropWhile_cons, if_pos ha] at h
      exact ih h
    · rw [List.dropWhile_cons, if_neg ha] at h
      cases h
      simpa using ha

theorem pyLstrip_idem (s : Str) : pyLstrip (pyLstrip s) = pyLstrip s :=
  dropWhile_dropWhile _ _

theorem pyRstrip_idem (s : Str) : pyRstrip (pyRstrip s) = pyRstrip s := by
  unfold pyRstrip
  rw [List.reverse_reverse, dropWhile_dropWhile]

theorem pyLstrip_sub (s : Str) : ∀ x ∈ pyLstrip s, x ∈ s := by
  intro x hx
  exact (List.dropWhile_sublist isPySpace).subset hx

theorem pyRstrip_sub (s : Str) : ∀ x ∈ pyRstrip s, x ∈ s := by
  intro x hx
  unfold pyRstrip at hx
  rw [List.mem_reverse] at hx
  have := (List.dropWhile_sublist isPySpace).subset hx
  simpa using this

theorem pyStrip_sub (s : Str) : ∀ x ∈ pyStrip s, x ∈ s := by
  intro x hx
  exact pyLstrip_sub s x (pyRstrip_sub (pyLstrip s) x hx)

theorem pyLstrip_eq_self (c : Char) (t : Str) (h : isPySpace c = false) :
    pyLstrip (c :: t) = c :: t := by
  simp [pyLstrip, List.dropWhile_cons, h]

theorem pyRstrip_cons (c : Char) (t : Str) :
    pyRstrip (c :: t) =
      if (pyRstrip t).isEmpty then (if isPySpace c then [] else [c])
      else c :: pyRstrip t := by
  unfold pyRstrip
  rw [show ((c :: t).reverse = t.reverse ++ [c]) from by simp, List.dropWhile_append]
  by_cases h : (t.reverse.dropWhile isPySpace).isEmpty = true
  · have h2 : ((t.reverse.dropWhile isPySpace).reverse).isEmpty = true := by
      simp only [List.isEmpty_iff] at h ⊢
      simp [h]
    rw [if_pos h, if_pos h2]
    by_cases hc : isPySpace c = true
    · simp [List.dropWhile_cons, hc]
    · simp [List.dropWhile_cons, hc]
  · have h2 : ((t.reverse.dropWhile isPySpace).reverse).isEmpty = false := by
      simp only [List.isEmpty_iff] at h ⊢
      simpa using h
    rw [if_neg h, h2]
    simp

theorem pyRstrip_eq_nil_iff (s : Str) :
    pyRstrip s = [] ↔ ∀ c ∈ s, isPySpace c = true := by
  unfold pyRstrip
  rw [List.reverse_eq_nil_iff, List.dropWhile_eq_nil_iff]
  constructor
  · intro h c hc
    exact h c (by simpa using hc)
  · intro h c hc
    exact h c (by simpa using hc)

theorem pyLstrip_pyRstrip (s : Str) : pyLstrip (pyRstrip s) = pyRstrip (pyLstrip s) := by
  induction s with
  | nil => rfl
  | cons c t ih =>
    by_cases hc : isPySpace c = true
    · rw [pyRstrip_cons]
      have hl : pyLstrip (c :: t) = pyLstrip t := by
        simp [pyLstrip, List.dropWhile_cons, hc]
      rw [hl]
      by_cases he : (pyRstrip t).isEmpty = true
      · rw [if_pos he, if_pos hc]
        have hall : ∀ x ∈ t, isPySpace x = true :=
          (pyRstrip_eq_nil_iff t).mp (by simpa using he)
        have hlt : pyLstrip t = [] := by
          simp only [pyLstrip, List.dropWhile_eq_nil_iff]
          exact hall
        rw [hlt]
        rfl
      · rw [if_neg he]
        have hlr : pyLstrip (c :: pyRstrip t) = pyLstrip (pyRstrip t) := by
          simp [pyLstrip, List.dropWhile_cons, hc]
        rw [hlr, ih]
    · have hc2 : isPySpace c = false := by simpa using hc
      rw [pyRstrip_cons]
      have hl : pyLstrip (c :: t) = c :: t := pyLstrip_eq_self c t hc2
      rw [hl]
      by_cases he : (pyRstrip t).isEmpty = true
      · rw [if_pos he, if_neg (by simp [hc2])]
        rw [pyLstrip_eq_self c [] hc2, pyRstrip_cons, he]
        simp [hc2]
      · rw [if_neg he]
        rw [pyLstrip_eq_self c (pyRstrip t) hc2, pyRstrip_cons, if_neg he]

theorem pyStrip_rstrip (s : Str) : pyStrip (pyRstrip s) = pyStrip s := by
  unfold pyStrip
  rw [pyLstrip_pyRstrip, pyRstrip_idem]

theorem pyStrip_idem (s : Str) : pyStrip (pyStrip s) = pyStrip s := by
  unfold pyStrip
  rw [pyLstrip_pyRstrip, pyRstrip_idem, pyLstrip_idem]

theorem pyRstrip_eq_self_of_last (s : Str) (c : Char) (hc : isPySpace c = false) :
    pyRstrip (s ++ [c]) = s ++ [c] := by
  unfold pyRstrip
  rw [List.reverse_append]
  simp [List.dropWhile_cons, hc]

theorem pyRstrip_append_space (s : Str) (c : Char) (hc : isPySpace c = true) :
    pyRstrip (s ++ [c]) = pyRstrip s := by
  unfold pyRstrip
  rw [List.reverse_append]
  simp [List.dropWhile_cons, hc]

theorem pyRstrip_ends (s : Str) :
    pyRstrip s = [] ∨ ∃ s0 c, pyRstrip s = s0 ++ [c] ∧ isPySpace c = false := by
  unfold pyRstrip
  cases hd : s.reverse.dropWhile isPySpace with
  | nil => left; simp [hd]
  | cons c t =>
    right
    exact ⟨t.reverse, c, by simp [hd], dropWhile_head_false _ _ _ _ hd⟩

theorem strLt_irrefl (a : Str) : strLt a a = false := by
  induction a with
  | nil => rfl
  | cons c t ih => simp [strLt, ih]

theorem strLt_asymm (a b : Str) (h : strLt a b = true) : strLt b a = false := by
  induction a generalizing b with
  | nil =>
    cases b with
    | nil => simp [strLt] at h
    | cons d u => rfl
  | cons c t ih =>
    cases b with
    | nil => simp [strLt] at h
    | cons d u =>
      by_cases hcd : c = d
      · subst hcd
        simp only [strLt, if_pos rfl] at h ⊢
        exact ih u h
      · simp only [strLt, if_neg hcd, decide_eq_true_eq] at h
        have hdc : ¬ d = c := fun hh => hcd hh.symm
        simp only [strLt, if_neg hdc, decide_eq_false_iff_not]
        exact lt_asymm h

theorem strLt_trans (a b c : Str) (h1 : strLt a b = true) (h2 : strLt b c = true) :
    strLt a c = true := by
  induction a generalizing b c with
  | nil =>
    cases c with
    | nil =>
      cases b with
      | nil => simp [strLt] at h1
      | cons d u => simp [strLt] at h2
    | cons e v => rfl
  | cons x t ih =>
    cases b with
    | nil => simp [strLt] at h1
    | cons d u =>
      cases c with
      | nil => simp [strLt] at h2
      | cons e v =>
        by_cases hxd : x = d
        · subst hxd
          simp only [strLt, if_pos rfl] at h1
          by_cases hxe : x = e
          · subst hxe
            simp only [strLt, if_pos rfl] at h2 ⊢
            exact ih u v h1 h2
          · simp only [strLt, if_neg hxe] at h2 ⊢
            exact h2
        · simp only [strLt, if_neg hxd, decide_eq_true_eq] at h1
          by_cases hde : d = e
          · subst hde
            have hxe : ¬ x = d := hxd
            simp only [strLt, if_neg hxe, decide_eq_true_eq]
            exact h1
          · simp only [strLt, if_neg hde, decide_eq_true_eq] at h2
            have hlt : x < e := lt_trans h1 h2
            have hxe : ¬ x = e := ne_of_lt hlt
            simp only [strLt, if_neg hxe, decide_eq_true_eq]
            exact hlt

theorem strLt_false_total (a b : Str) (h : strLt a b = false) :
    a = b ∨ strLt b a = true := by
  induction a generalizing b with
  | nil =>
    cases b with
    | nil => left; rfl
    | cons d u => simp [strLt] at h
  | cons c t ih =>
    cases b with
    | nil => right; rfl
    | cons d u =>
      by_cases hcd : c = d
      · subst hcd
        simp only [strLt, if_pos rfl] at h ⊢
        rcases ih u h with he | hlt
        · left; rw [he]
        · right; exact hlt
      · simp only [strLt, if_neg hcd, decide_eq_false_iff_not] at h
        have : d < c ∨ d = c := by
          rcases lt_trichotomy c d with hh | hh | hh
          · exact absurd hh h
          · exact Or.inr hh.symm
          · exact Or.inl hh
        rcases this with hh | hh
        · right
          have hdc : ¬ d = c := fun he => hcd he.symm
          simp [strLt, hdc, hh]
        · exact absurd hh (fun he => hcd he.symm)

theorem mem_insertByKey {α : Type} (key : α → Str) (x : α) (l : List α) (z : α) :
    z ∈ insertByKey key x l ↔ z = x ∨ z ∈ l := by
  induction l with
  | nil => simp [insertByKey]
  | cons y ys ih =>
    by_cases h : strLt (key y) (key x) = true
    · simp only [insertByKey, if_pos h, List.mem_cons, ih]
      tauto
    · simp only [insertByKey, if_neg h, List.mem_cons]

theorem insertByKey_pairwise {α : Type} (key : α → Str) (x : α) (l : List α)
    (hl : l.Pairwise (fun a b => strLt (key b) (key a) = false)) :
    (insertByKey key x l).Pairwise (fun a b => strLt (key b) (key a) = false) := by
  induction l with
  | nil => simp [insertByKey]
  | cons y ys ih =>
    rcases List.pairwise_cons.mp hl with ⟨hy, hys⟩
    by_cases h : strLt (key y) (key x) = true
    · rw [insertByKey, if_pos h]
      refine List.pairwise_cons.mpr ⟨?_, ih hys⟩
      intro z hz
      rcases (mem_insertByKey key x ys z).mp hz with hz | hz
      · subst hz
        exact strLt_asymm _ _ h
      · exact hy z hz
    · rw [insertByKey, if_neg h]
      have hxf : strLt (key y) (key x) = false := by simpa using h
      refine List.pairwise_cons.mpr ⟨?_, hl⟩
      intro z hz
      rcases List.mem_cons.mp hz with hz | hz
      · subst hz; exact hxf
      · have hzy : strLt (key z) (key y) = false := hy z hz
        rw [← Bool.not_eq_true]
        intro hzx
        rcases strLt_false_total _ _ hzy with he | hyz
        · rw [← he] at hxf
          rw [hxf] at hzx
          cases hzx
        · rcases strLt_false_total _ _ hxf with he2 | hxy
          · rw [← he2] at hzx
            rw [hzy] at hzx
            cases hzx
          · have := strLt_trans _ _ _ hzx hxy
            rw [hzy] at this
            cases this

theorem pySortBy_pairwise {α : Type} (key : α → Str) (l : List α) :
    (pySortBy key l).Pairwise (fun a b => strLt (key b) (key a) = false) := by
  induction l with
  | nil => simp [pySortBy]
  | cons x xs ih => exact insertByKey_pairwise key x (pySortBy key xs) ih

theorem insertByKey_perm {α : Type} (key : α → Str) (x : α) (l : List α) :
    (insertByKey key x l).Perm (x :: l) := by
  induction l with
  | nil => simp [insertByKey]
  | cons y ys ih =>
    by_cases h : strLt (key y) (key x) = true
    · rw [insertByKey, if_pos h]
      exact (ih.cons y).trans (List.Perm.swap x y ys)
    · rw [insertByKey, if_neg h]

theorem pySortBy_perm {α : Type} (key : α → Str) (l : List α) :
    (pySortBy key l).Perm l := by
  induction l with
  | nil => simp [pySortBy]
  | cons x xs ih =>
    exact (insertByKey_perm key x (pySortBy key xs)).trans (List.Perm.cons x ih)

theorem pySortBy_sorted_id {α : Type} (key : α → Str) (l : List α)
    (h : l.Pairwise (fun a b => strLt (key b) (key a) = false)) :
    pySortBy key l = l := by
  induction l with
  | nil => rfl
  | cons x xs ih =>
    rcases List.pairwise_cons.mp h with ⟨hx, hxs⟩
    rw [pySortBy, ih hxs]
    cases xs with
    | nil => rfl
    | cons y ys =>
      have := hx y (by simp)
      rw [insertByKey, if_neg (by simp [this])]

theorem dedup_mem_sub (seen l : List Str) :
    ∀ x ∈ dedupByLowerAux seen l, x ∈ l := by
  induction l generalizing seen with
  | nil => simp [dedupByLowerAux]
  | cons e rest ih =>
    intro x hx
    by_cases h : seen.contains (pyLower e) = true
    · rw [dedupByLowerAux, if_pos h] at hx
      exact List.mem_cons.mpr (Or.inr (ih seen x hx))
    · rw [dedupByLowerAux, if_neg h] at hx
      rcases List.mem_cons.mp hx with hx | hx
      · exact List.mem_cons.mpr (Or.inl hx)
      · exact List.mem_cons.mpr (Or.inr (ih _ x hx))

theorem dedup_mem_not_seen (seen l : List Str) :
    ∀ x ∈ dedupByLowerAux seen l, seen.contains (pyLower x) = false := by
  induction l generalizing seen with
  | nil => simp [dedupByLowerAux]
  | cons e rest ih =>
    intro x hx
    by_cases h : seen.contains (pyLower e) = true
    · rw [dedupByLowerAux, if_pos h] at hx
      exact ih seen x hx
    · rw [dedupByLowerAux, if_neg h] at hx
      rcases List.mem_cons.mp hx with hx | hx
      · subst hx
        simpa using h
      · have := ih (pyLower e :: seen) x hx
        simp only [List.contains_cons, Bool.or_eq_false_iff] at this
        exact this.2

theorem dedup_pairwise (seen l : List Str) :
    (dedupByLowerAux seen l).Pairwise (fun a b => pyLower a ≠ pyLower b) := by
  induction l generalizing seen with
  | nil => simp [dedupByLowerAux]
  | cons e rest ih =>
    by_cases h : seen.contains (pyLower e) = true
    · rw [dedupByLowerAux, if_pos h]
      exact ih seen
    · rw [dedupByLowerAux, if_neg h]
      refine List.pairwise_cons.mpr ⟨?_, ih _⟩
      intro z hz heq
      have := dedup_mem_not_seen _ _ z hz
      simp only [List.contains_cons, Bool.or_eq_false_iff] at this
      have h1 := this.1
      rw [← heq] at h1
      simp at h1

theorem dedup_id_of_pairwise (seen l : List Str)
    (h : l.Pairwise (fun a b => pyLower a ≠ pyLower b))
    (hs : ∀ x ∈ l, seen.contains (pyLower x) = false) :
    dedupByLowerAux seen l = l := by
  induction l generalizing seen with
  | nil => rfl
  | cons e rest ih =>
    rcases List.pairwise_cons.mp h with ⟨he, hrest⟩
    have h0 : seen.contains (pyLower e) = false := hs e (by simp)
    rw [dedupByLowerAux, if_neg (by simpa using h0)]
    refine congrArg (e :: ·) (ih _ hrest ?_)
    intro x hx
    simp only [List.contains_cons, Bool.or_eq_false_iff]
    constructor
    · simp only [beq_eq_false_iff_ne, ne_eq]
      intro heq
      exact he x hx heq.symm
    · exact hs x (by simp [hx])

theorem pySplitlinesAux_nil_eq (acc : Str) :
    pySplitlinesAux acc [] = if acc.isEmpty then [] else [acc.reverse] := rfl

theorem pySplitlinesAux_cons_eq (acc : Str) (c : Char) (rest : Str) :
    pySplitlinesAux acc (c :: rest) =
      if lineTerminator c then acc.reverse :: pySplitlinesAux [] rest
      else pySplitlinesAux (c :: acc) rest := rfl

/-- Scanning a terminator-free line up to a `\n` separator yields that line. -/
theorem pySplitlinesAux_through (rest : Str) (l : Str)
    (hl : ∀ c ∈ l, lineTerminator c = false) (acc : Str) :
    pySplitlinesAux acc (l ++ '\n' :: rest) =
      (acc.reverse ++ l) :: pySplitlinesAux [] rest := by
  induction l generalizing acc with
  | nil =>
    simp only [List.nil_append]
    rw [pySplitlinesAux_cons_eq, if_pos (by decide)]
    simp
  | cons c t ih =>
    rw [List.cons_append, pySplitlinesAux_cons_eq, if_neg (by simp [hl c (by simp)])]
    rw [ih (fun x hx => hl x (by simp [hx])) (c :: acc)]
    simp

/-- Reassembling terminator-free lines with `\n` and a final newline splits
back to the same lines. -/
theorem pySplitlines_assemble (ls : List Str)
    (h : ∀ l ∈ ls, ∀ c ∈ l, lineTerminator c = false) (hne : ls ≠ []) :
    pySplitlines (List.intercalate ['\n'] ls ++ ['\n']) = ls := by
  unfold pySplitlines
  induction ls with
  | nil => exact absurd rfl hne
  | cons l t ih =>
    cases t with
    | nil =>
      rw [intercalate_single,
        show l ++ ['\n'] = l ++ '\n' :: [] from by simp,
        pySplitlinesAux_through [] l (h l (by simp)) [],
        pySplitlinesAux_nil_eq]
      simp
    | cons l2 r =>
      rw [intercalate_cons_cons,
        show (l ++ ['\n'] ++ List.intercalate ['\n'] (l2 :: r)) ++ ['\n'] =
          l ++ '\n' :: (List.intercalate ['\n'] (l2 :: r) ++ ['\n']) from by simp,
        pySplitlinesAux_through _ l (h l (by simp)) []]
      rw [ih (fun x hx => h x (by simp [hx])) (by simp)]
      simp

/-- Lines produced by `pySplitlines` contain no line terminators. -/
theorem pySplitlinesAux_termfree (s : Str) : ∀ acc : Str,
    (∀ c ∈ acc, lineTerminator c = false) →
    ∀ l ∈ pySplitlinesAux acc s, ∀ c ∈ l, lineTerminator c = false := by
  induction s with
  | nil =>
    intro acc hacc l hl
    rw [pySplitlinesAux_nil_eq] at hl
    by_cases he : acc.isEmpty = true
    · rw [if_pos he] at hl
      simp at hl
    · rw [if_neg he] at hl
      simp at hl
      subst hl
      intro c hc
      exact hacc c (by simpa using hc)
  | cons a rest ih =>
    intro acc hacc l hl
    rw [pySplitlinesAux_cons_eq] at hl
    by_cases ht : lineTerminator a = true
    · rw [if_pos ht] at hl
      rcases List.mem_cons.mp hl with hl | hl
      · subst hl
        intro c hc
        exact hacc c (by simpa using hc)
      · exact ih [] (by simp) l hl
    · rw [if_neg ht] at hl
      refine ih (a :: acc) ?_ l hl
      intro x hx
      rcases List.mem_cons.mp hx with hx | hx
      · subst hx
        simpa using ht
      · exact hacc x hx

theorem pySplitlines_termfree (s : Str) :
    ∀ l ∈ pySplitlines s, ∀ c ∈ l, lineTerminator c = false :=
  pySplitlinesAux_termfree s [] (by simp)

theorem dedupKeepFirst_cons (x : Str) (xs : List Str) :
    dedupKeepFirst (x :: xs) =
      x :: dedupKeepFirst (xs.filter (fun y => pyLower y ≠ pyLower x)) := by
  rw [dedupKeepFirst.eq_def]

/-- The seen-set dedup loop equals the keep-head spec dedup on the entries
not yet seen. -/
theorem dedupAux_eq_keepFirst (l : List Str) : ∀ seen : List Str,
    dedupByLowerAux seen l =
      dedupKeepFirst (l.filter (fun e => !(seen.contains (pyLower e)))) := by
  induction l with
  | nil =>
    intro seen
    rw [List.filter_nil, dedupKeepFirst.eq_def]
    rfl
  | cons e rest ih =>
    intro seen
    by_cases h : seen.contains (pyLower e) = true
    · rw [dedupByLowerAux, if_pos h, List.filter_cons, if_neg (by simpa using h)]
      exact ih seen
    · rw [dedupByLowerAux, if_neg h, List.filter_cons,
        if_pos (by simpa using Bool.eq_false_iff.mpr h), dedupKeepFirst_cons]
      rw [ih (pyLower e :: seen)]
      refine congrArg (e :: ·) (congrArg dedupKeepFirst ?_)
      rw [List.filter_filter]
      apply List.filter_congr
      intro y hy
      by_cases h1 : pyLower y = pyLower e
      · simp [List.contains_cons, h1]
      · by_cases h2 : seen.contains (pyLower y) = true
        · simp [List.contains_cons, h1, h2]
        · simp [List.contains_cons, h1, h2, Bool.eq_false_iff.mpr h2]

/-- `classifyLines` as a pair of filters, as the spec words it. -/
theorem classifyLines_eq (ls : List Str) :
    classifyLines ls = ((ls.filter isCommentLine).map pyRstrip,
      (ls.filter (fun l => !((pyStrip l).isEmpty) && !(isCommentLine l))).map pyStrip) := by
  induction ls with
  | nil => rfl
  | cons l t ih =>
    by_cases hb : (pyStrip l).isEmpty = true
    · have hcom : isCommentLine l = false := by
        simp only [isCommentLine]
        have h0 : pyStrip l = [] := by simpa using hb
        rw [h0]
        rfl
      rw [classifyLines, if_pos hb, ih, List.filter_cons, if_neg (by simp [hcom]),
        List.filter_cons, if_neg (by simp [hb])]
    · by_cases hc : (pyStrip l).head? = some '#'
      · have hcom : isCommentLine l = true := by simp [isCommentLine, hc]
        rw [classifyLines, if_neg hb, if_pos hc, ih, List.filter_cons,
          if_pos (by simp [hcom]), List.filter_cons, if_neg (by simp [hcom])]
        rfl
      · have hcom : isCommentLine l = false := by simp [isCommentLine, hc]
        rw [classifyLines, if_neg hb, if_neg hc, ih, List.filter_cons,
          if_neg (by simp [hcom]), List.filter_cons,
          if_pos (by simp [hcom, Bool.eq_false_iff.mpr hb])]
        rfl

/-- C6 counterexample: on `b\n# c\na\n` the code hoists the mid-file comment
above the entries and inserts a blank line, while the claim's description
(leading comments only) yields a different text. -/
theorem lychee_claim_counterexample :
    sort_lycheeignore_text "b\n# c\na\n".data = "# c\n\na\nb\n".data ∧
    claimC6Out "b\n# c\na\n".data = "# c\na\nb\n".data ∧
    sort_lycheeignore_text "b\n# c\na\n".data ≠ claimC6Out "b\n# c\na\n".data := by
  refine ⟨by decide, by decide, by decide⟩

/-- C6 (amended): the normalizer output consists of all comment lines of the
file (right-stripped, original order) at the top, one blank line if any
comments exist, then the remaining non-blank lines stripped, deduplicated
case-insensitively keeping the first casing and sorted case-insensitively,
with trailing whitespace trimmed and a final newline; the file is rewritten
exactly when this differs from the original content. -/
theorem lychee_normalizer_shape (content : Str) :
    sort_lycheeignore_text content = specC6Out content ∧
    sort_lycheeignore_writes content = decide (specC6Out content ≠ content) := by
  have hmain : sort_lycheeignore_text content = specC6Out content := by
    unfold sort_lycheeignore_text specC6Out lycheeOutLines
    rw [classifyLines_eq]
    rw [dedupAux_eq_keepFirst]
    have hf : ((((pySplitlines content).filter
          (fun l => !((pyStrip l).isEmpty) && !(isCommentLine l))).map pyStrip).filter
          (fun e => !(List.contains ([] : List Str) (pyLower e)))) =
        ((pySplitlines content).filter
          (fun l => !((pyStrip l).isEmpty) && !(isCommentLine l))).map pyStrip := by
      rw [List.filter_eq_self]
      intro a ha
      simp
    rw [hf]
    have hmap : ∀ Y : List Str, (Y.map pyRstrip).isEmpty = Y.isEmpty := by
      intro Y
      cases Y with
      | nil => rfl
      | cons a t => rfl
    rw [hmap]
  exact ⟨hmain, by rw [sort_lycheeignore_writes, hmain]⟩

theorem intercalate_append_last (s x : Str) (ls : List Str) (h : ls ≠ []) :
    List.intercalate s (ls ++ [x]) = List.intercalate s ls ++ s ++ x := by
  induction ls with
  | nil => exact absurd rfl h
  | cons a t ih =>
    cases t with
    | nil =>
      rw [show ([a] : List Str) ++ [x] = a :: x :: [] from rfl, intercalate_cons_cons,
        intercalate_single, intercalate_single]
    | cons b r =>
      rw [show ((a :: b :: r) ++ [x]) = a :: ((b :: r) ++ [x]) from rfl]
      cases hbr : (b :: r) ++ [x] with
      | nil => simp at hbr
      | cons q qr =>
        rw [intercalate_cons_cons, ← hbr, ih (by simp), intercalate_cons_cons]
        simp [List.append_assoc]

/-- Classification of a block of already-normalized comment lines. -/
theorem classify_comments (cs : List Str)
    (h : ∀ c ∈ cs, pyRstrip c = c ∧ (pyStrip c).head? = some '#') :
    classifyLines cs = (cs, []) := by
  induction cs with
  | nil => rfl
  | cons c t ih =>
    obtain ⟨h1, h2⟩ := h c (by simp)
    have hne : (pyStrip c).isEmpty = false := by
      cases hh : pyStrip c with
      | nil => rw [hh] at h2; simp at h2
      | cons a b => rfl
    rw [classifyLines, if_neg (by simp [hne]), if_pos h2,
      ih (fun x hx => h x (by simp [hx])), h1]

/-- Classification of a block of already-normalized entry lines. -/
theorem classify_entries (ds : List Str)
    (h : ∀ e ∈ ds, pyStrip e = e ∧ e ≠ [] ∧ ¬((pyStrip e).head? = some '#')) :
    classifyLines ds = ([], ds) := by
  induction ds with
  | nil => rfl
  | cons e t ih =>
    obtain ⟨h1, h2, h3⟩ := h e (by simp)
    have hne : (pyStrip e).isEmpty = false := by
      rw [h1]
      cases he : e with
      | nil => exact absurd he h2
      | cons a b => rfl
    rw [classifyLines, if_neg (by simp [hne]), if_neg h3,
      ih (fun x hx => h x (by simp [hx])), h1]

theorem classifyLines_append (a b : List Str) :
    classifyLines (a ++ b) =
      ((classifyLines a).1 ++ (classifyLines b).1,
       (classifyLines a).2 ++ (classifyLines b).2) := by
  induction a with
  | nil => simp [classifyLines]
  | cons l t ih =>
    rw [List.cons_append]
    by_cases hb : (pyStrip l).isEmpty = true
    · rw [classifyLines, if_pos hb, ih, classifyLines, if_pos hb]
    · by_cases hc : (pyStrip l).head? = some '#'
      · rw [classifyLines, if_neg hb, if_pos hc, ih,
          show classifyLines (l :: t) =
            (pyRstrip l :: (classifyLines t).1, (classifyLines t).2) from by
              rw [classifyLines, if_neg hb, if_pos hc]]
        simp
      · rw [classifyLines, if_neg hb, if_neg hc, ih,
          show classifyLines (l :: t) =
            ((classifyLines t).1, pyStrip l :: (classifyLines t).2) from by
              rw [classifyLines, if_neg hb, if_neg hc]]
        simp

/-- Properties of the classified comment and entry blocks. -/
theorem classify_props (ls : List Str)
    (hts : ∀ l ∈ ls, ∀ ch ∈ l, lineTerminator ch = false) :
    (∀ x ∈ (classifyLines ls).1, pyRstrip x = x ∧ (pyStrip x).head? = some '#' ∧
        ∀ ch ∈ x, lineTerminator ch = false) ∧
    (∀ e ∈ (classifyLines ls).2, pyStrip e = e ∧ e ≠ [] ∧
        ¬((pyStrip e).head? = some '#') ∧ ∀ ch ∈ e, lineTerminator ch = false) := by
  induction ls with
  | nil => simp [classifyLines]
  | cons l t ih =>
    have iht := ih (fun x hx => hts x (by simp [hx]))
    have htl : ∀ ch ∈ l, lineTerminator ch = false := hts l (by simp)
    by_cases hb : (pyStrip l).isEmpty = true
    · rw [classifyLines, if_pos hb]
      exact iht
    · by_cases hc : (pyStrip l).head? = some '#'
      · rw [classifyLines, if_neg hb, if_pos hc]
        constructor
        · intro x hx
          rcases List.mem_cons.mp hx with hx | hx
          · subst hx
            refine ⟨pyRstrip_idem l, ?_, ?_⟩
            · rw [pyStrip_rstrip]
              exact hc
            · intro ch hch
              exact htl ch (pyRstrip_sub l ch hch)
          · exact iht.1 x hx
        · exact iht.2
      · rw [classifyLines, if_neg hb, if_neg hc]
        constructor
        · exact iht.1
        · intro e he
          rcases List.mem_cons.mp he with he | he
          · subst he
            refine ⟨pyStrip_idem l, ?_, ?_, ?_⟩
            · intro hx
              rw [hx] at hb
              simp at hb
            · rw [pyStrip_idem]
              exact hc
            · intro ch hch
              exact htl ch (pyStrip_sub l ch hch)
          · exact iht.2 e he

/-- A stripped nonempty string ends in a non-space character. -/
theorem strip_nonempty_ends (e : Str) (h1 : pyStrip e = e) (h2 : e ≠ []) :
    ∃ s0 ch, e = s0 ++ [ch] ∧ isPySpace ch = false := by
  rcases pyRstrip_ends (pyLstrip e) with hh | ⟨s0, ch, hh, hch⟩
  · rw [show pyRstrip (pyLstrip e) = pyStrip e from rfl, h1] at hh
    exact absurd hh h2
  · rw [show pyRstrip (pyLstrip e) = pyStrip e from rfl, h1] at hh
    exact ⟨s0, ch, hh, hch⟩

/-- A right-stripped comment line ends in a non-space character. -/
theorem comment_ends (c : Str) (h1 : pyRstrip c = c)
    (h2 : (pyStrip c).head? = some '#') :
    ∃ s0 ch, c = s0 ++ [ch] ∧ isPySpace ch = false := by
  rcases pyRstrip_ends c with hh | ⟨s0, ch, hh, hch⟩
  · rw [h1] at hh
    rw [hh] at h2
    simp [pyStrip, pyLstrip, pyRstrip] at h2
  · rw [h1] at hh
    exact ⟨s0, ch, hh, hch⟩

theorem pyRstrip_append_ends (pre e : Str) (s0 : Str) (ch : Char)
    (he : e = s0 ++ [ch]) (hch : isPySpace ch = false) :
    pyRstrip (pre ++ e) = pre ++ e := by
  subst he
  rw [← List.append_assoc]
  exact pyRstrip_eq_self_of_last _ ch hch

/-- Running the normalizer on a text that is already in output form (comment
block, blank separator, stripped distinct sorted entries) returns it
unchanged. -/
theorem lychee_output_fixed (CS DS : List Str)
    (hCS : ∀ c ∈ CS, pyRstrip c = c ∧ (pyStrip c).head? = some '#' ∧
        ∀ ch ∈ c, lineTerminator ch = false)
    (hDS : ∀ e ∈ DS, pyStrip e = e ∧ e ≠ [] ∧ ¬((pyStrip e).head? = some '#') ∧
        ∀ ch ∈ e, lineTerminator ch = false)
    (hdist : DS.Pairwise (fun a b => pyLower a ≠ pyLower b))
    (hsorted : DS.Pairwise (fun a b => strLt (pyLower b) (pyLower a) = false)) :
    sort_lycheeignore_text
        (pyRstrip (List.intercalate ['\n'] (lycheeOutLines CS DS)) ++ ['\n']) =
      pyRstrip (List.intercalate ['\n'] (lycheeOutLines CS DS)) ++ ['\n'] := by
  have htf : ∀ l ∈ lycheeOutLines CS DS, ∀ ch ∈ l, lineTerminator ch = false := by
    intro l hl
    rw [lycheeOutLines] at hl
    rcases List.mem_append.mp hl with hl | hl
    · by_cases hcse : CS.isEmpty = true
      · rw [if_pos hcse] at hl
        simp at hl
      · rw [if_neg hcse] at hl
        rcases List.mem_append.mp hl with hl | hl
        · exact (hCS l hl).2.2
        · simp at hl
          subst hl
          intro ch hch
          simp at hch
    · exact (hDS l hl).2.2.2
  rcases List.eq_nil_or_concat DS with hDSnil | ⟨dr2, dlast, hcat⟩
  · subst hDSnil
    rcases List.eq_nil_or_concat CS with hCSnil | ⟨cr2, clast, hccat⟩
    · subst hCSnil
      decide
    · rw [List.concat_eq_append] at hccat
      have hCSne : CS ≠ [] := by rw [hccat]; simp
      have hCSie : CS.isEmpty = false := by
        rw [hccat]
        cases cr2 with
        | nil => rfl
        | cons a t => rfl
      have h1 : List.intercalate ['\n'] (lycheeOutLines CS []) =
          List.intercalate ['\n'] CS ++ ['\n'] := by
        rw [lycheeOutLines, if_neg (by simp [hCSie]), List.append_nil,
          intercalate_append_last _ _ _ hCSne]
        simp
      obtain ⟨s0, ch, hce, hch⟩ := comment_ends clast
        (hCS clast (by rw [hccat]; simp)).1 (hCS clast (by rw [hccat]; simp)).2.1
      have h2 : pyRstrip (List.intercalate ['\n'] (lycheeOutLines CS [])) =
          List.intercalate ['\n'] CS := by
        rw [h1, pyRstrip_append_space _ '\n' (by decide)]
        by_cases hcr2 : cr2 = []
        · subst hcr2
          rw [hccat]
          simp only [List.nil_append]
          rw [intercalate_single, hce]
          exact pyRstrip_eq_self_of_last s0 ch hch
        · rw [hccat, intercalate_append_last _ _ _ hcr2]
          exact pyRstrip_append_ends _ clast s0 ch hce hch
      rw [h2]
      have h3 : pySplitlines (List.intercalate ['\n'] CS ++ ['\n']) = CS :=
        pySplitlines_assemble CS (fun l hl => (hCS l hl).2.2) hCSne
      unfold sort_lycheeignore_text
      rw [h3, classify_comments CS (fun c hc => ⟨(hCS c hc).1, (hCS c hc).2.1⟩)]
      show pyRstrip (List.intercalate ['\n'] (lycheeOutLines CS [])) ++ ['\n'] = _
      rw [h2]
  · rw [List.concat_eq_append] at hcat
    have hDSne : DS ≠ [] := by rw [hcat]; simp
    obtain ⟨s0, ch, hde, hch⟩ := strip_nonempty_ends dlast
      (hDS dlast (by rw [hcat]; simp)).1 (hDS dlast (by rw [hcat]; simp)).2.1
    have hdecomp : lycheeOutLines CS DS =
        ((if CS.isEmpty then [] else CS ++ [[]]) ++ dr2) ++ [dlast] := by
      rw [lycheeOutLines, hcat, List.append_assoc]
    have h2 : pyRstrip (List.intercalate ['\n'] (lycheeOutLines CS DS)) =
        List.intercalate ['\n'] (lycheeOutLines CS DS) := by
      rw [hdecomp]
      by_cases hpre : ((if CS.isEmpty then [] else CS ++ [[]]) ++ dr2) = []
      · rw [hpre]
        simp only [List.nil_append]
        rw [intercalate_single, hde]
        exact pyRstrip_eq_self_of_last s0 ch hch
      · rw [intercalate_append_last _ _ _ hpre]
        exact pyRstrip_append_ends _ dlast s0 ch hde hch
    rw [h2]
    have hlne : lycheeOutLines CS DS ≠ [] := by
      rw [hdecomp]
      simp
    have h3 : pySplitlines
        (List.intercalate ['\n'] (lycheeOutLines CS DS) ++ ['\n']) =
        lycheeOutLines CS DS :=
      pySplitlines_assemble _ htf hlne
    have h4 : classifyLines (lycheeOutLines CS DS) = (CS, DS) := by
      rw [lycheeOutLines]
      by_cases hcse : CS.isEmpty = true
      · have hCSnil : CS = [] := by simpa using hcse
        rw [if_pos hcse, List.nil_append,
          classify_entries DS (fun e he => ⟨(hDS e he).1, (hDS e he).2.1, (hDS e he).2.2.1⟩),
          hCSnil]
      · rw [if_neg hcse, List.append_assoc, classifyLines_append,
          classifyLines_append,
          classify_comments CS (fun c hc => ⟨(hCS c hc).1, (hCS c hc).2.1⟩),
          classify_entries DS (fun e he => ⟨(hDS e he).1, (hDS e he).2.1, (hDS e he).2.2.1⟩)]
        simp [classifyLines]
        exact ⟨by decide, by decide⟩
    have h5 : dedupByLowerAux [] DS = DS :=
      dedup_id_of_pairwise [] DS hdist (fun x _ => rfl)
    have h6 : pySortBy pyLower DS = DS := pySortBy_sorted_id _ _ hsorted
    unfold sort_lycheeignore_text
    rw [h3, h4]
    show pyRstrip (List.intercalate ['\n']
      (lycheeOutLines CS (pySortBy pyLower (dedupByLowerAux [] DS)))) ++ ['\n'] = _
    rw [h5, h6, h2]

/-- C7: the ignore-list normalizer is idempotent: run on its own output it
computes the same content and reports no write. -/
theorem lychee_idempotent (content : Str) :
    sort_lycheeignore_text (sort_lycheeignore_text content) =
      sort_lycheeignore_text content ∧
    sort_lycheeignore_writes (sort_lycheeignore_text content) = false := by
  suffices h : sort_lycheeignore_text (sort_lycheeignore_text content) =
      sort_lycheeignore_text content by
    refine ⟨h, ?_⟩
    rw [sort_lycheeignore_writes, h]
    simp
  have hprops := classify_props (pySplitlines content) (pySplitlines_termfree content)
  have hsub : ∀ e ∈ pySortBy pyLower
      (dedupByLowerAux [] (classifyLines (pySplitlines content)).2),
      e ∈ (classifyLines (pySplitlines content)).2 := by
    intro e he
    exact dedup_mem_sub [] _ e ((pySortBy_perm pyLower _).mem_iff.mp he)
  exact lychee_output_fixed (classifyLines (pySplitlines content)).1
    (pySortBy pyLower (dedupByLowerAux [] (classifyLines (pySplitlines content)).2))
    hprops.1
    (fun e he => hprops.2 e (hsub e he))
    (((pySortBy_perm pyLower _).pairwise_iff
      (fun hab he => hab he.symm)).mpr (dedup_pairwise [] _))
    (pySortBy_pairwise pyLower _)

/-- One annotator step over a character that cannot open a match (it is not
an opening bracket, or the lookbehind blocks it): the character is copied and
becomes the new lookbehind state. -/
theorem annotateAux_step_skip (c : Char) (prev : Option Char) (fuel : Nat) (t : Str)
    (h : ¬(c = '[' ∧ prev ≠ some '!')) :
    annotateAux prev (fuel + 1) (c :: t) =
      (annotateAux (some c) fuel t).map (fun r => c :: r) := by
  simp only [annotateAux]
  rw [if_neg h]

/-- One checker-scan step over a character that cannot open a match. -/
theorem linkDestsAux_step_skip (c : Char) (prev : Option Char) (fuel : Nat) (t : Str)
    (h : ¬(c = '[' ∧ prev ≠ some '!')) :
    linkDestsAux prev (fuel + 1) (c :: t) = linkDestsAux (some c) fuel t := by
  simp only [linkDestsAux]
  rw [if_neg h]

/-- The annotator copies a bracket-free prefix verbatim. -/
theorem annotateAux_copy (pre : Str) : ∀ (prev : Option Char) (fuel : Nat) (rest : Str),
    (∀ c ∈ pre, c ≠ '[') →
    annotateAux prev (pre.length + fuel) (pre ++ rest) =
      (annotateAux (lastPrev prev pre) fuel rest).map (fun r => pre ++ r) := by
  induction pre with
  | nil =>
    intro prev fuel rest _
    simp only [List.length_nil, Nat.zero_add, List.nil_append, lastPrev]
    cases annotateAux prev fuel rest <;> rfl
  | cons c cs ih =>
    intro prev fuel rest hpre
    have hc : ¬(c = '[' ∧ prev ≠ some '!') := fun hh => hpre c (by simp) hh.1
    have hl : (c :: cs).length + fuel = (cs.length + fuel) + 1 := by
      simp only [List.length_cons]
      omega
    rw [List.cons_append, hl,
      annotateAux_step_skip c prev (cs.length + fuel) (cs ++ rest) hc,
      ih (some c) fuel rest (fun x hx => hpre x (List.mem_cons_of_mem c hx))]
    simp only [lastPrev, Option.map_map]
    cases annotateAux (lastPrev (some c) cs) fuel rest <;> simp

/-- The checker scan records nothing over a bracket-free prefix. -/
theorem linkDestsAux_copy (pre : Str) : ∀ (prev : Option Char) (fuel : Nat) (rest : Str),
    (∀ c ∈ pre, c ≠ '[') →
    linkDestsAux prev (pre.length + fuel) (pre ++ rest) =
      linkDestsAux (lastPrev prev pre) fuel rest := by
  induction pre with
  | nil =>
    intro prev fuel rest _
    simp only [List.length_nil, Nat.zero_add, List.nil_append, lastPrev]
  | cons c cs ih =>
    intro prev fuel rest hpre
    have hc : ¬(c = '[' ∧ prev ≠ some '!') := fun hh => hpre c (by simp) hh.1
    have hl : (c :: cs).length + fuel = (cs.length + fuel) + 1 := by
      simp only [List.length_cons]
      omega
    rw [List.cons_append, hl,
      linkDestsAux_step_skip c prev (cs.length + fuel) (cs ++ rest) hc,
      ih (some c) fuel rest (fun x hx => hpre x (List.mem_cons_of_mem c hx))]
    simp only [lastPrev]

/-- The annotator copies a whole image `![alt](url)` verbatim when the alt
text and the url contain no opening bracket: the lookbehind blocks the match
at the image's bracket. -/
theorem annotateAux_image (alt url post : Str) (prev : Option Char) (fuel : Nat)
    (halt : ∀ c ∈ alt, c ≠ '[') (hurl : ∀ c ∈ url, c ≠ '[') :
    annotateAux prev (alt.length + url.length + fuel + 5)
        ('!' :: '[' :: (alt ++ ']' :: '(' :: (url ++ ')' :: post))) =
      (annotateAux (some ')') fuel post).map
        (fun r => '!' :: '[' :: (alt ++ ']' :: '(' :: (url ++ ')' :: r))) := by
  have h1 : alt.length + url.length + fuel + 5 =
      (alt.length + url.length + fuel + 4) + 1 := rfl
  rw [h1, annotateAux_step_skip '!' prev _ _ (fun hh => absurd hh.1 (by decide))]
  have h2 : alt.length + url.length + fuel + 4 =
      (alt.length + url.length + fuel + 3) + 1 := rfl
  rw [h2, annotateAux_step_skip '[' (some '!') _ _ (fun hh => hh.2 rfl)]
  have h3 : alt.length + url.length + fuel + 3 =
      alt.length + (url.length + fuel + 3) := by omega
  rw [h3, annotateAux_copy alt (some '[') (url.length + fuel + 3)
    (']' :: '(' :: (url ++ ')' :: post)) halt]
  have h4 : url.length + fuel + 3 = (url.length + fuel + 2) + 1 := rfl
  rw [h4, annotateAux_step_skip ']' _ _ _ (fun hh => absurd hh.1 (by decide))]
  have h5 : url.length + fuel + 2 = (url.length + fuel + 1) + 1 := rfl
  rw [h5, annotateAux_step_skip '(' _ _ _ (fun hh => absurd hh.1 (by decide))]
  have h6 : url.length + fuel + 1 = url.length + (fuel + 1) := by omega
  rw [h6, annotateAux_copy url (some '(') (fuel + 1) (')' :: post) hurl]
  rw [annotateAux_step_skip ')' _ _ _ (fun hh => absurd hh.1 (by decide))]
  simp only [Option.map_map]
  cases annotateAux (some ')') fuel post <;>
    simp [Function.comp, List.append_assoc]

/-- The checker scan records no destination over a whole image `![alt](url)`
when the alt text and the url contain no opening bracket. -/
theorem linkDestsAux_image (alt url post : Str) (prev : Option Char) (fuel : Nat)
    (halt : ∀ c ∈ alt, c ≠ '[') (hurl : ∀ c ∈ url, c ≠ '[') :
    linkDestsAux prev (alt.length + url.length + fuel + 5)
        ('!' :: '[' :: (alt ++ ']' :: '(' :: (url ++ ')' :: post))) =
      linkDestsAux (some ')') fuel post := by
  have h1 : alt.length + url.length + fuel + 5 =
      (alt.length + url.length + fuel + 4) + 1 := rfl
  rw [h1, linkDestsAux_step_skip '!' prev _ _ (fun hh => absurd hh.1 (by decide))]
  have h2 : alt.length + url.length + fuel + 4 =
      (alt.length + url.length + fuel + 3) + 1 := rfl
  rw [h2, linkDestsAux_step_skip '[' (some '!') _ _ (fun hh => hh.2 rfl)]
  have h3 : alt.length + url.length + fuel + 3 =
      alt.length + (url.length + fuel + 3) := by omega
  rw [h3, linkDestsAux_copy alt (some '[') (url.length + fuel + 3)
    (']' :: '(' :: (url ++ ')' :: post)) halt]
  have h4 : url.length + fuel + 3 = (url.length + fuel + 2) + 1 := rfl
  rw [h4, linkDestsAux_step_skip ']' _ _ _ (fun hh => absurd hh.1 (by decide))]
  have h5 : url.length + fuel + 2 = (url.length + fuel + 1) + 1 := rfl
  rw [h5, linkDestsAux_step_skip '(' _ _ _ (fun hh => absurd hh.1 (by decide))]
  have h6 : url.length + fuel + 1 = url.length + (fuel + 1) := by omega
  rw [h6, linkDestsAux_copy url (some '(') (fuel + 1) (')' :: post) hurl]
  rw [linkDestsAux_step_skip ')' _ _ _ (fun hh => absurd hh.1 (by decide))]

/-- C9 counterexample: an image nested inside an outer link IS touched by both
passes.  The annotator on `[![t](http://u?utm_source=chatgpt.com&a=1)](https://x)`
strips the utm parameter inside the image and inserts an attribute block into
the image text, and the checker scan on `[![t](foo)](https://x)` collects the
image destination `foo`. -/
theorem annotator_image_counterexample :
    append_target_blank_text
        "[![t](http://u?utm_source=chatgpt.com&a=1)](https://x)".data =
      some ("[![t](http://u?a=1)".data ++ lbrace :: "target=_blank".data ++
        rbrace :: "](https://x)".data) ∧
    "[![t](http://u?a=1)".data ++ lbrace :: "target=_blank".data ++
        rbrace :: "](https://x)".data ≠
      "[![t](http://u?utm_source=chatgpt.com&a=1)](https://x)".data ∧
    linkDests "[![t](foo)](https://x)".data = ["foo".data] :=
  ⟨by decide, by decide, by decide⟩

/-- C9 (amended): an image `![alt](url)` whose alt text and url contain no
opening bracket is untouched by either scanner whenever the scan reaches it,
in any lookbehind state — so in particular after any earlier complete matches
of preceding text have been consumed: the annotator emits the image
byte-for-byte unchanged (no utm stripping, no attribute block) and resumes
scanning after its closing parenthesis, and the checker scan collects no
destination from the image, because the lookbehind blocks the match at the
image's own bracket.  Consequently, when the text before the image contains no
opening bracket at all, the full annotator pass returns the preceding text and
the image unchanged with only the following text transformed, and the full
checker pass collects no destination from the image. -/
theorem image_untouched (pre alt url post : Str)
    (hpre : ∀ c ∈ pre, c ≠ '[') (halt : ∀ c ∈ alt, c ≠ '[')
    (hurl : ∀ c ∈ url, c ≠ '[') :
    (∀ (prev : Option Char) (fuel : Nat),
      annotateAux prev (alt.length + url.length + fuel + 5)
          ('!' :: '[' :: (alt ++ ']' :: '(' :: (url ++ ')' :: post))) =
        (annotateAux (some ')') fuel post).map
          (fun r => '!' :: '[' :: (alt ++ ']' :: '(' :: (url ++ ')' :: r)))) ∧
    (∀ (prev : Option Char) (fuel : Nat),
      linkDestsAux prev (alt.length + url.length + fuel + 5)
          ('!' :: '[' :: (alt ++ ']' :: '(' :: (url ++ ')' :: post))) =
        linkDestsAux (some ')') fuel post) ∧
    append_target_blank_text
        (pre ++ '!' :: '[' :: (alt ++ ']' :: '(' :: (url ++ ')' :: post))) =
      (annotateAux (some ')') post.length post).map
        (fun r => pre ++ '!' :: '[' :: (alt ++ ']' :: '(' :: (url ++ ')' :: r))) ∧
    linkDests (pre ++ '!' :: '[' :: (alt ++ ']' :: '(' :: (url ++ ')' :: post))) =
      linkDestsAux (some ')') post.length post := by
  have hR : ('!' :: '[' :: (alt ++ ']' :: '(' :: (url ++ ')' :: post))).length =
      alt.length + url.length + post.length + 5 := by
    simp only [List.length_cons, List.length_append]
    omega
  refine ⟨fun prev fuel => annotateAux_image alt url post prev fuel halt hurl,
    fun prev fuel => linkDestsAux_image alt url post prev fuel halt hurl, ?_, ?_⟩
  · unfold append_target_blank_text
    rw [List.length_append, annotateAux_copy pre none _ _ hpre, hR,
      annotateAux_image alt url post _ post.length halt hurl]
    cases annotateAux (some ')') post.length post <;> simp
  · unfold linkDests
    rw [List.length_append, linkDestsAux_copy pre none _ _ hpre, hR,
      linkDestsAux_image alt url post _ post.length halt hurl]

/-- Witness for the amended C9 at `x ![t](a.png) y`, taking the scan-level
parts at the arbitrary lookbehind state `x` and the fuel of the trailing
text. -/
theorem image_untouched_witness :
    (annotateAux (some 'x')
        ("t".data.length + "a.png".data.length + " y".data.length + 5)
        ('!' :: '[' :: ("t".data ++ ']' :: '(' ::
          ("a.png".data ++ ')' :: " y".data))) =
      (annotateAux (some ')') " y".data.length " y".data).map
        (fun r => '!' :: '[' :: ("t".data ++ ']' :: '(' ::
          ("a.png".data ++ ')' :: r)))) ∧
    (linkDestsAux (some 'x')
        ("t".data.length + "a.png".data.length + " y".data.length + 5)
        ('!' :: '[' :: ("t".data ++ ']' :: '(' ::
          ("a.png".data ++ ')' :: " y".data))) =
      linkDestsAux (some ')') " y".data.length " y".data) ∧
    append_target_blank_text
        ("x ".data ++ '!' :: '[' :: ("t".data ++ ']' :: '(' ::
          ("a.png".data ++ ')' :: " y".data))) =
      (annotateAux (some ')') " y".data.length " y".data).map
        (fun r => "x ".data ++ '!' :: '[' :: ("t".data ++ ']' :: '(' ::
          ("a.png".data ++ ')' :: r))) ∧
    linkDests ("x ".data ++ '!' :: '[' :: ("t".data ++ ']' :: '(' ::
        ("a.png".data ++ ')' :: " y".data))) =
      linkDestsAux (some ')') " y".data.length " y".data :=
  have h := image_untouched "x ".data "t".data "a.png".data " y".data
    (by decide) (by decide) (by decide)
  ⟨h.1 (some 'x') " y".data.length, h.2.1 (some 'x') " y".data.length,
    h.2.2.1, h.2.2.2⟩

/-- Witness for C5 at the destination `foo/bar/` from `docs/guide/page.md`. -/
theorem dir_link_two_candidates_witness :
    (candidates_for_quarto_source exFilePath "foo/bar/".data exRoot =
      [pyJoin (baseOf exFilePath "foo/bar/".data exRoot) "index.qmd".data,
       pyJoin (baseOf exFilePath "foo/bar/".data exRoot) "index.md".data] ∧
    pyParsePath (pyStrPath (baseOf exFilePath "foo/bar/".data exRoot) ++ ".qmd".data) ∉
      candidates_for_quarto_source exFilePath "foo/bar/".data exRoot ∧
    pyParsePath (pyStrPath (baseOf exFilePath "foo/bar/".data exRoot) ++ ".md".data) ∉
      candidates_for_quarto_source exFilePath "foo/bar/".data exRoot) :=
  dir_link_two_candidates exFilePath exRoot "foo/bar/".data
    (by decide) (by decide) (by decide)


/-! ## C1: strip_chatgpt_utm preserves the other parameters and fragment -/

theorem char_eq_iff_toNat (a b : Char) : a = b ↔ a.toNat = b.toNat := by
  constructor
  · intro h; rw [h]
  · intro h; exact Char.ext (UInt32.ext h)

theorem char_le_iff_toNat (a b : Char) : a ≤ b ↔ a.toNat ≤ b.toNat := by
  rw [Char.le_def, UInt32.le_def]; rfl

theorem toNat_ofNat_valid (n : Nat) (h : Nat.isValidChar n) :
    (Char.ofNat n).toNat = n := by
  rw [Char.ofNat, dif_pos h]; rfl

theorem uint32ext (a b : Char) (h : a.toNat = b.toNat) : a = b :=
  Char.ext (UInt32.ext h)

theorem char_valid (c : Char) :
    c.toNat < 0xD800 ∨ (0xE000 ≤ c.toNat ∧ c.toNat < 0x110000) := c.valid

theorem ofNat_toNat_char (c : Char) : Char.ofNat c.toNat = c :=
  Char.ext (UInt32.ext (toNat_ofNat_valid c.toNat c.valid))

theorem utf8Decode_b1 (b : Nat) (bs : List Nat) (h : b < 0x80) :
    utf8Decode (b :: bs) = Char.ofNat b :: utf8Decode bs := by
  conv_lhs => rw [utf8Decode.eq_def]
  dsimp only
  rw [if_pos h]

theorem utf8Decode_b2 (b1 b2 : Nat) (bs : List Nat)
    (h1 : 0xC2 ≤ b1) (h2 : b1 < 0xE0) (h3 : 0x80 ≤ b2) (h4 : b2 < 0xC0) :
    utf8Decode (b1 :: b2 :: bs) =
      Char.ofNat ((b1 - 0xC0) * 0x40 + (b2 - 0x80)) :: utf8Decode bs := by
  conv_lhs => rw [utf8Decode.eq_def]
  dsimp only
  rw [if_neg (by omega), if_neg (by omega), if_pos (by omega)]
  rw [if_pos ⟨h3, h4⟩]

theorem utf8Decode_b3 (b1 b2 b3 : Nat) (bs : List Nat)
    (h1 : 0xE0 ≤ b1) (h2 : b1 < 0xF0) (h3 : 0x80 ≤ b2) (h4 : b2 < 0xC0)
    (hE0 : b1 = 0xE0 → 0xA0 ≤ b2) (hED : b1 = 0xED → b2 < 0xA0)
    (h5 : 0x80 ≤ b3) (h6 : b3 < 0xC0) :
    utf8Decode (b1 :: b2 :: b3 :: bs) =
      Char.ofNat ((b1 - 0xE0) * 0x1000 + (b2 - 0x80) * 0x40 + (b3 - 0x80)) ::
        utf8Decode bs := by
  conv_lhs => rw [utf8Decode.eq_def]
  dsimp only
  rw [if_neg (by omega), if_neg (by omega), if_neg (by omega), if_pos (by omega)]
  rw [if_pos ⟨⟨h3, h4⟩, hE0, hED⟩, if_pos ⟨h5, h6⟩]

theorem utf8Decode_b4 (b1 b2 b3 b4 : Nat) (bs : List Nat)
    (h1 : 0xF0 ≤ b1) (h2 : b1 < 0xF5) (h3 : 0x80 ≤ b2) (h4 : b2 < 0xC0)
    (hF0 : b1 = 0xF0 → 0x90 ≤ b2) (hF4 : b1 = 0xF4 → b2 < 0x90)
    (h5 : 0x80 ≤ b3) (h6 : b3 < 0xC0) (h7 : 0x80 ≤ b4) (h8 : b4 < 0xC0) :
    utf8Decode (b1 :: b2 :: b3 :: b4 :: bs) =
      Char.ofNat ((b1 - 0xF0) * 0x40000 + (b2 - 0x80) * 0x1000 +
        (b3 - 0x80) * 0x40 + (b4 - 0x80)) :: utf8Decode bs := by
  conv_lhs => rw [utf8Decode.eq_def]
  dsimp only
  rw [if_neg (by omega), if_neg (by omega), if_neg (by omega), if_neg (by omega),
    if_pos (by omega)]
  rw [if_pos ⟨⟨h3, h4⟩, hF0, hF4⟩, if_pos ⟨h5, h6⟩, if_pos ⟨h7, h8⟩]

/-- Decoding the UTF-8 encoding of one character recovers it, for any
following bytes. -/
theorem utf8Decode_encodeChar (c : Char) (bs : List Nat) :
    utf8Decode (utf8EncodeChar c ++ bs) = c :: utf8Decode bs := by
  have hv := char_valid c
  rw [utf8EncodeChar]
  by_cases hA : c.toNat < 0x80
  · rw [if_pos hA]
    simp only [List.cons_append, List.nil_append]
    rw [utf8Decode_b1 _ _ hA, ofNat_toNat_char]
  · rw [if_neg hA]
    by_cases hB : c.toNat < 0x800
    · rw [if_pos hB]
      simp only [List.cons_append, List.nil_append]
      rw [utf8Decode_b2 _ _ _ (by omega) (by omega) (by omega) (by omega)]
      have he : (0xC0 + c.toNat / 0x40 - 0xC0) * 0x40 +
          (0x80 + c.toNat % 0x40 - 0x80) = c.toNat := by omega
      rw [he, ofNat_toNat_char]
    · rw [if_neg hB]
      by_cases hC : c.toNat < 0x10000
      · rw [if_pos hC]
        simp only [List.cons_append, List.nil_append]
        rw [utf8Decode_b3 _ _ _ _ (by omega) (by omega) (by omega) (by omega)
          (by intro h0; omega) (by intro h0; omega) (by omega) (by omega)]
        have he : (0xE0 + c.toNat / 0x1000 - 0xE0) * 0x1000 +
            (0x80 + c.toNat / 0x40 % 0x40 - 0x80) * 0x40 +
            (0x80 + c.toNat % 0x40 - 0x80) = c.toNat := by omega
        rw [he, ofNat_toNat_char]
      · rw [if_neg hC]
        simp only [List.cons_append, List.nil_append]
        rw [utf8Decode_b4 _ _ _ _ _ (by omega) (by omega) (by omega) (by omega)
          (by intro h0; omega) (by intro h0; omega) (by omega) (by omega)
          (by omega) (by omega)]
        have he : (0xF0 + c.toNat / 0x40000 - 0xF0) * 0x40000 +
            (0x80 + c.toNat / 0x1000 % 0x40 - 0x80) * 0x1000 +
            (0x80 + c.toNat / 0x40 % 0x40 - 0x80) * 0x40 +
            (0x80 + c.toNat % 0x40 - 0x80) = c.toNat := by omega
        rw [he, ofNat_toNat_char]

theorem utf8EncodeChar_lt (c : Char) : ∀ b ∈ utf8EncodeChar c, b < 256 := by
  have hv := char_valid c
  intro b hb
  rw [utf8EncodeChar] at hb
  by_cases hA : c.toNat < 0x80
  · rw [if_pos hA] at hb
    simp at hb
    omega
  · rw [if_neg hA] at hb
    by_cases hB : c.toNat < 0x800
    · rw [if_pos hB] at hb
      simp at hb
      rcases hb with h | h <;> omega
    · rw [if_neg hB] at hb
      by_cases hC : c.toNat < 0x10000
      · rw [if_pos hC] at hb
        simp at hb
        rcases hb with h | h | h <;> omega
      · rw [if_neg hC] at hb
        simp at hb
        rcases hb with h | h | h | h <;> omega


theorem pdTokens_cons_ne (c : Char) (rest : Str) (h : c ≠ '%') :
    pdTokens (c :: rest) = Sum.inr c :: pdTokens rest := by
  conv_lhs => rw [pdTokens.eq_def]
  dsimp only
  rw [if_neg h]

theorem hexDigitVal_hexDigitUpper (x : Nat) (h : x < 16) :
    hexDigitVal (hexDigitUpper x) = some x := by
  interval_cases x <;> decide

theorem hexDigitUpper_mem (x : Nat) (h : x < 16) :
    hexDigitUpper x ∈ "0123456789ABCDEF".data := by
  interval_cases x <;> decide

theorem pdTokens_percentEncodeByte (b : Nat) (hb : b < 256) (rest : Str) :
    pdTokens (percentEncodeByte b ++ rest) = Sum.inl b :: pdTokens rest := by
  show pdTokens ('%' :: hexDigitUpper (b / 16) :: hexDigitUpper (b % 16) :: rest) = _
  conv_lhs => rw [pdTokens.eq_def]
  dsimp only
  rw [if_pos rfl]
  rw [hexDigitVal_hexDigitUpper _ (by omega), hexDigitVal_hexDigitUpper _ (by omega)]
  show Sum.inl (16 * (b / 16) + b % 16) :: pdTokens rest = _
  congr 2
  omega

theorem pdTokens_encBytes (bs : List Nat) (hb : ∀ b ∈ bs, b < 256) (rest : Str) :
    pdTokens ((bs.map percentEncodeByte).flatten ++ rest) =
      bs.map Sum.inl ++ pdTokens rest := by
  induction bs with
  | nil => simp
  | cons b t ih =>
    simp only [List.map_cons, List.flatten_cons, List.append_assoc]
    rw [pdTokens_percentEncodeByte b (hb b (by simp)),
      ih (fun x hx => hb x (by simp [hx]))]
    rfl

theorem replacePlus_id (l : Str) (h : ∀ ch ∈ l, ch ≠ '+') : replacePlus l = l := by
  induction l with
  | nil => rfl
  | cons a t ih =>
    have ha : a ≠ '+' := h a (by simp)
    have ht := ih (fun x hx => h x (by simp [hx]))
    simp only [replacePlus, List.map_cons] at *
    rw [if_neg ha, ht]

theorem replacePlus_append (a b : Str) :
    replacePlus (a ++ b) = replacePlus a ++ replacePlus b := List.map_append _ a b

theorem pdTokens_quote_plus (s : Str) :
    pdTokens (replacePlus (quote_plus s)) = (s.map qpTokens).flatten := by
  induction s with
  | nil => rfl
  | cons c t ih =>
    have hq : quote_plus (c :: t) = quotePlusChar c ++ quote_plus t := by
      simp [quote_plus]
    rw [hq, replacePlus_append]
    by_cases hsafe : alwaysSafeChar c = true
    · have hc : c ≠ '+' := fun e => by rw [e] at hsafe; exact absurd hsafe (by decide)
      have hp : c ≠ '%' := fun e => by rw [e] at hsafe; exact absurd hsafe (by decide)
      have h1 : replacePlus (quotePlusChar c) = [c] := by
        rw [quotePlusChar, if_pos hsafe]
        exact replacePlus_id [c] (by simpa using hc)
      rw [h1, List.cons_append, List.nil_append, pdTokens_cons_ne c _ hp, ih]
      simp [qpTokens, hsafe]
    · by_cases hsp : c = ' '
      · subst hsp
        have h1 : replacePlus (quotePlusChar ' ') = [' '] := by decide
        rw [h1, List.cons_append, List.nil_append,
          pdTokens_cons_ne ' ' _ (by decide), ih]
        simp [qpTokens, hsafe]
      · have h1 : replacePlus (quotePlusChar c) =
            ((utf8EncodeChar c).map percentEncodeByte).flatten := by
          rw [quotePlusChar, if_neg (by simpa using hsafe), if_neg hsp]
          apply replacePlus_id
          intro ch hch
          obtain ⟨pe, hpe, hch2⟩ := List.mem_flatten.mp hch
          obtain ⟨b, hb, hbe⟩ := List.mem_map.mp hpe
          subst hbe
          have hb256 := utf8EncodeChar_lt c b hb
          rw [percentEncodeByte] at hch2
          rcases List.mem_cons.mp hch2 with h | h
          · subst h; decide
          · rcases List.mem_cons.mp h with h | h
            · subst h
              intro he
              have := hexDigitUpper_mem (b / 16) (by omega)
              rw [he] at this
              exact absurd this (by decide)
            · rcases List.mem_cons.mp h with h | h
              · subst h
                intro he
                have := hexDigitUpper_mem (b % 16) (by omega)
                rw [he] at this
                exact absurd this (by decide)
              · simp at h
        rw [h1, pdTokens_encBytes (utf8EncodeChar c) (utf8EncodeChar_lt c), ih]
        simp [qpTokens, hsafe, hsp]

theorem utf8Decode_encode (w : Str) : utf8Decode (utf8Encode w) = w := by
  induction w with
  | nil => rfl
  | cons c t ih =>
    simp only [utf8Encode, List.map_cons, List.flatten_cons]
    rw [utf8Decode_encodeChar]
    rw [show (t.map utf8EncodeChar).flatten = utf8Encode t from rfl, ih]

theorem groupDecodeAux_inl (E : List Nat) : ∀ (acc : List Nat) (ts : List (Nat ⊕ Char)),
    groupDecodeAux acc (E.map Sum.inl ++ ts) = groupDecodeAux (E.reverse ++ acc) ts := by
  induction E with
  | nil => intro acc ts; simp
  | cons b t ih =>
    intro acc ts
    simp only [List.map_cons, List.cons_append, groupDecodeAux, List.append_eq]
    rw [ih (b :: acc) ts]
    simp

theorem groupDecodeAux_main (s : Str) : ∀ (w : Str),
    groupDecodeAux (utf8Encode w).reverse ((s.map qpTokens).flatten) = w ++ s := by
  induction s with
  | nil =>
    intro w
    simp only [List.map_nil, List.flatten_nil, groupDecodeAux, List.reverse_reverse,
      utf8Decode_encode, List.append_nil]
  | cons c t ih =>
    intro w
    simp only [List.map_cons, List.flatten_cons]
    by_cases hsafe : alwaysSafeChar c = true
    · rw [show qpTokens c = [Sum.inr c] from by simp [qpTokens, hsafe]]
      simp only [List.cons_append, List.nil_append, groupDecodeAux, List.append_eq]
      rw [List.reverse_reverse, utf8Decode_encode]
      have h0 := ih []
      simp only [utf8Encode, List.map_nil, List.flatten_nil, List.reverse_nil,
        List.nil_append] at h0
      rw [h0]
    · by_cases hsp : c = ' '
      · subst hsp
        rw [show qpTokens ' ' = [Sum.inr ' '] from by decide]
        simp only [List.cons_append, List.nil_append, groupDecodeAux, List.append_eq]
        rw [List.reverse_reverse, utf8Decode_encode]
        have h0 := ih []
        simp only [utf8Encode, List.map_nil, List.flatten_nil, List.reverse_nil,
          List.nil_append] at h0
        rw [h0]
      · rw [show qpTokens c = (utf8EncodeChar c).map Sum.inl from by
          simp [qpTokens, hsafe, hsp]]
        rw [groupDecodeAux_inl]
        have hrev : (utf8EncodeChar c).reverse ++ (utf8Encode w).reverse =
            (utf8Encode (w ++ [c])).reverse := by
          rw [← List.reverse_append]
          congr 1
          simp [utf8Encode]
        rw [hrev, ih (w ++ [c])]
        simp

theorem unquotePlus_quote_plus (s : Str) : unquotePlus (quote_plus s) = s := by
  rw [unquotePlus, unquote, pdTokens_quote_plus]
  have h0 := groupDecodeAux_main s []
  simp only [utf8Encode, List.map_nil, List.flatten_nil, List.reverse_nil,
    List.nil_append] at h0
  rw [h0]

theorem splitFirst_append (c : Char) (a b : Str) (ha : ∀ x ∈ a, x ≠ c) :
    splitFirst c (a ++ c :: b) = some (a, b) := by
  induction a with
  | nil => simp [splitFirst]
  | cons x t ih =>
    have hx : x ≠ c := ha x (by simp)
    simp only [List.cons_append, splitFirst, if_neg hx, List.append_eq]
    rw [ih (fun y hy => ha y (by simp [hy]))]
    rfl

theorem quote_plus_chars (s : Str) :
    ∀ ch ∈ quote_plus s, alwaysSafeChar ch = true ∨ ch = '+' ∨
      ch ∈ "%0123456789ABCDEF".data := by
  intro ch hch
  rw [quote_plus] at hch
  obtain ⟨piece, hpiece, hch2⟩ := List.mem_flatten.mp hch
  obtain ⟨c, _, hce⟩ := List.mem_map.mp hpiece
  subst hce
  rw [quotePlusChar] at hch2
  by_cases hsafe : alwaysSafeChar c = true
  · rw [if_pos hsafe] at hch2
    simp at hch2
    subst hch2
    exact Or.inl hsafe
  · rw [if_neg hsafe] at hch2
    by_cases hsp : c = ' '
    · rw [if_pos hsp] at hch2
      simp at hch2
      subst hch2
      exact Or.inr (Or.inl rfl)
    · rw [if_neg hsp] at hch2
      obtain ⟨pe, hpe, hch3⟩ := List.mem_flatten.mp hch2
      obtain ⟨bb, hbb, hbe⟩ := List.mem_map.mp hpe
      subst hbe
      have hb256 := utf8EncodeChar_lt c bb hbb
      rw [percentEncodeByte] at hch3
      refine Or.inr (Or.inr ?_)
      rcases List.mem_cons.mp hch3 with h | h
      · subst h; decide
      · rcases List.mem_cons.mp h with h | h
        · subst h
          exact List.mem_cons_of_mem '%' (hexDigitUpper_mem (bb / 16) (by omega))
        · rcases List.mem_cons.mp h with h | h
          · subst h
            exact List.mem_cons_of_mem '%' (hexDigitUpper_mem (bb % 16) (by omega))
          · simp at h

theorem quote_plus_ne (s : Str) (bad : Char) (hbad : alwaysSafeChar bad = false)
    (h2 : bad ≠ '+') (h3 : bad ∉ "%0123456789ABCDEF".data) :
    ∀ ch ∈ quote_plus s, ch ≠ bad := by
  intro ch hch he
  rcases quote_plus_chars s ch hch with h | h | h
  · rw [he, hbad] at h
    exact absurd h (by decide)
  · rw [he] at h
    exact h2 h
  · rw [he] at h
    exact h3 h

theorem parse_qsl_parts (ps : List (Str × Str)) :
    (ps.map (fun kv => quote_plus kv.1 ++ '=' :: quote_plus kv.2)).filterMap
      (fun nv =>
        if nv.isEmpty then none
        else
          match splitFirst '=' nv with
          | some p => some (unquotePlus p.1, unquotePlus p.2)
          | none => some (unquotePlus nv, [])) = ps := by
  induction ps with
  | nil => rfl
  | cons kv t ih =>
    simp only [List.map_cons, List.filterMap_cons]
    have hfa : (if (quote_plus kv.1 ++ '=' :: quote_plus kv.2).isEmpty = true then
          (none : Option (Str × Str))
        else
          match splitFirst '=' (quote_plus kv.1 ++ '=' :: quote_plus kv.2) with
          | some p => some (unquotePlus p.1, unquotePlus p.2)
          | none => some (unquotePlus (quote_plus kv.1 ++ '=' :: quote_plus kv.2), [])) =
        some kv := by
      rw [if_neg (by simp), splitFirst_append '=' _ _
        (quote_plus_ne _ '=' (by decide) (by decide) (by decide))]
      simp [unquotePlus_quote_plus]
    simp only [hfa]
    rw [ih]

theorem parse_qsl_urlencode (l : List (Str × Str)) : parse_qsl (urlencode l) = l := by
  cases l with
  | nil => rfl
  | cons kv0 t =>
    have hsplit : splitOnChar '&' (urlencode (kv0 :: t)) =
        (kv0 :: t).map (fun kv => quote_plus kv.1 ++ '=' :: quote_plus kv.2) := by
      rw [urlencode]
      apply splitOnChar_intercalate
      · intro p hp x hx
        obtain ⟨kv, _, hkv⟩ := List.mem_map.mp hp
        subst hkv
        rcases List.mem_append.mp hx with h | h
        · exact quote_plus_ne _ '&' (by decide) (by decide) (by decide) x h
        · rcases List.mem_cons.mp h with h | h
          · subst h; decide
          · exact quote_plus_ne _ '&' (by decide) (by decide) (by decide) x h
      · simp
    have hqs : urlencode (kv0 :: t) ≠ [] := by
      rw [urlencode]
      cases t with
      | nil =>
        rw [List.map_cons, List.map_nil, intercalate_single]
        simp
      | cons b r =>
        rw [List.map_cons, List.map_cons, intercalate_cons_cons]
        simp
    rw [parse_qsl, if_neg (by simpa [List.isEmpty_iff] using hqs), hsplit]
    exact parse_qsl_parts (kv0 :: t)

theorem dropWhile_append_all (p : Char → Bool) (A rest : Str)
    (h : ∀ a ∈ A, p a = true) :
    List.dropWhile p (A ++ rest) = List.dropWhile p rest := by
  induction A with
  | nil => rfl
  | cons a t ih =>
    rw [List.cons_append, List.dropWhile_cons, if_pos (h a (by simp))]
    exact ih (fun x hx => h x (by simp [hx]))

theorem takeWhile_append_all (p : Char → Bool) (A rest : Str)
    (h : ∀ a ∈ A, p a = true) :
    List.takeWhile p (A ++ rest) = A ++ List.takeWhile p rest := by
  induction A with
  | nil => rfl
  | cons a t ih =>
    rw [List.cons_append, List.takeWhile_cons, if_pos (h a (by simp)),
      ih (fun x hx => h x (by simp [hx])), List.cons_append]

theorem dropWhile_append_stop (p : Char → Bool) (l1 l2 : Str)
    (h : ∀ c, l2.head? = some c → p c = false) :
    List.dropWhile p (l1 ++ l2) = List.dropWhile p l1 ++ l2 := by
  induction l1 with
  | nil =>
    cases l2 with
    | nil => rfl
    | cons c t =>
      simp only [List.nil_append, List.dropWhile_cons, List.dropWhile_nil]
      rw [if_neg (by simp [h c rfl])]
  | cons a t ih =>
    rw [List.cons_append, List.dropWhile_cons, List.dropWhile_cons]
    by_cases hp : p a = true
    · rw [if_pos hp, if_pos hp, ih]
    · rw [if_neg hp, if_neg hp, List.cons_append]

theorem fq_core (R u3 : Str) (hR : ∀ c ∈ R, c ≠ '#' ∧ c ≠ '?') :
    ((R ++ u3).dropWhile (· ≠ '#')).drop 1 = (u3.dropWhile (· ≠ '#')).drop 1 ∧
    (((R ++ u3).takeWhile (· ≠ '#')).dropWhile (· ≠ '?')).drop 1 =
      ((u3.takeWhile (· ≠ '#')).dropWhile (· ≠ '?')).drop 1 := by
  constructor
  · rw [dropWhile_append_all _ R _ (fun a ha => by simpa using (hR a ha).1)]
  · rw [takeWhile_append_all _ R _ (fun a ha => by simpa using (hR a ha).1),
      dropWhile_append_all _ R _ (fun a ha => by simpa using (hR a ha).2)]

theorem schemeChar_ne (c : Char) (h : schemeChar c = true) : c ≠ '#' ∧ c ≠ '?' := by
  constructor <;> intro e <;> subst e <;> exact absurd h (by decide)

theorem not_netlocDelim_ne (c : Char) (h : (!netlocDelim c) = true) :
    c ≠ '#' ∧ c ≠ '?' := by
  constructor <;> intro e <;> subst e <;> exact absurd h (by decide)

theorem splitSchemeOf_spec (u : Str) :
    ((splitSchemeOf u).1 = [] ∧ (splitSchemeOf u).2 = u) ∨
    (∃ pre, pre.all schemeChar = true ∧ (splitSchemeOf u).1 = pyLower pre ∧
      u = pre ++ ':' :: (splitSchemeOf u).2) := by
  rw [splitSchemeOf]
  cases hf : u.findIdx? (· = ':') with
  | none => exact Or.inl ⟨rfl, rfl⟩
  | some i =>
    dsimp only
    obtain ⟨hi, hfi⟩ := List.findIdx?_eq_some_iff_findIdx_eq.mp hf
    obtain ⟨hpi, _⟩ := (List.findIdx_eq hi).mp hfi
    have hgi : u[i] = ':' := of_decide_eq_true hpi
    split
    next hc =>
      refine Or.inr ⟨u.take i, (Bool.and_eq_true _ _ |>.mp hc).2, rfl, ?_⟩
      conv_lhs => rw [← List.take_append_drop i u]
      congr 1
      rw [List.drop_eq_getElem_cons hi, hgi]
    next hc => exact Or.inl ⟨rfl, rfl⟩

theorem pyLowerChar_schemeChar (c : Char) (h : schemeChar c = true) :
    pyLowerChar c ≠ '#' ∧ pyLowerChar c ≠ '?' ∧ isUnsafeUrlChar (pyLowerChar c) = false := by
  have hh := h
  rw [schemeChar] at hh
  simp only [isAsciiAlpha, isAsciiUpper, isAsciiLower, isAsciiDigit, Bool.or_eq_true,
    Bool.and_eq_true, decide_eq_true_eq, char_le_iff_toNat, char_eq_iff_toNat] at hh
  have eA : ('A').toNat = 65 := rfl
  have eZ : ('Z').toNat = 90 := rfl
  have ea : ('a').toNat = 97 := rfl
  have ez : ('z').toNat = 122 := rfl
  have e0 : ('0').toNat = 48 := rfl
  have e9 : ('9').toNat = 57 := rfl
  have ep : ('+').toNat = 43 := rfl
  have em : ('-').toNat = 45 := rfl
  have ed : ('.').toNat = 46 := rfl
  rw [pyLowerChar]
  by_cases hAZ : 'A' ≤ c ∧ c ≤ 'Z'
  · rw [if_pos hAZ]
    rw [char_le_iff_toNat, char_le_iff_toNat] at hAZ
    have hx : (Char.ofNat (c.toNat + 32)).toNat = c.toNat + 32 :=
      toNat_ofNat_valid _ (Or.inl (by omega))
    refine ⟨?_, ?_, ?_⟩
    · intro e
      rw [char_eq_iff_toNat, hx] at e
      have e1 : ('#').toNat = 35 := rfl
      omega
    · intro e
      rw [char_eq_iff_toNat, hx] at e
      have e1 : ('?').toNat = 63 := rfl
      omega
    · apply Bool.eq_false_iff.mpr
      intro hu
      rw [isUnsafeUrlChar] at hu
      simp only [Bool.or_eq_true, decide_eq_true_eq, char_eq_iff_toNat, hx] at hu
      have e1 : ('\t').toNat = 9 := rfl
      have e2 : ('\r').toNat = 13 := rfl
      have e3 : ('\n').toNat = 10 := rfl
      omega
  · rw [if_neg hAZ]
    have hlat : ¬(0xC0 ≤ c.toNat ∧ c.toNat ≤ 0xDE ∧ c.toNat ≠ 0xD7) := by omega
    rw [if_neg hlat]
    refine ⟨?_, ?_, ?_⟩
    · intro e
      subst e
      exact absurd h (by decide)
    · intro e
      subst e
      exact absurd h (by decide)
    · apply Bool.eq_false_iff.mpr
      intro hu
      rw [isUnsafeUrlChar] at hu
      simp only [Bool.or_eq_true, decide_eq_true_eq] at hu
      rcases hu with (e | e) | e <;> (subst e; exact absurd h (by decide))

theorem urlsplit_core_facts (u1 R u3 : Str) (hdec : u1 = R ++ u3)
    (hRfree : ∀ c ∈ R, c ≠ '#' ∧ c ≠ '?')
    (hclean : ∀ c ∈ u1, isUnsafeUrlChar c = false) :
    (u3.dropWhile (· ≠ '#')).drop 1 = (u1.dropWhile (· ≠ '#')).drop 1 ∧
    ((u3.takeWhile (· ≠ '#')).dropWhile (· ≠ '?')).drop 1 =
      ((u1.takeWhile (· ≠ '#')).dropWhile (· ≠ '?')).drop 1 ∧
    (∀ c ∈ (u3.takeWhile (· ≠ '#')).takeWhile (· ≠ '?'),
      c ≠ '#' ∧ c ≠ '?' ∧ isUnsafeUrlChar c = false) ∧
    (∀ c ∈ (u3.dropWhile (· ≠ '#')).drop 1, isUnsafeUrlChar c = false) := by
  have hu3 : ∀ c ∈ u3, c ∈ u1 := fun c hc => by
    rw [hdec]
    exact List.mem_append.mpr (Or.inr hc)
  refine ⟨?_, ?_, ?_, ?_⟩
  · rw [hdec]
    exact ((fq_core R u3 hRfree).1).symm
  · rw [hdec]
    exact ((fq_core R u3 hRfree).2).symm
  · intro c hc
    have h1 : c ∈ u3.takeWhile (· ≠ '#') := (List.takeWhile_sublist _).subset hc
    have hq : c ≠ '?' := by simpa using List.mem_takeWhile_imp hc
    have hsh : c ≠ '#' := by simpa using List.mem_takeWhile_imp h1
    exact ⟨hsh, hq, hclean c (hu3 c ((List.takeWhile_sublist _).subset h1))⟩
  · intro c hc
    have h1 : c ∈ u3.dropWhile (· ≠ '#') := (List.drop_sublist _ _).subset hc
    exact hclean c (hu3 c ((List.dropWhile_sublist _).subset h1))

theorem urlsplit_spec (s : Str) (r : SplitResult) (h : urlsplit s = some r) :
    r.fragment = (((s.dropWhile isC0OrSpace).filter
        (fun c => !(isUnsafeUrlChar c))).dropWhile (· ≠ '#')).drop 1 ∧
    r.query = ((((s.dropWhile isC0OrSpace).filter
        (fun c => !(isUnsafeUrlChar c))).takeWhile (· ≠ '#')).dropWhile (· ≠ '?')).drop 1 ∧
    (∀ c ∈ r.scheme, c ≠ '#' ∧ c ≠ '?' ∧ isUnsafeUrlChar c = false) ∧
    (∀ c ∈ r.netloc, c ≠ '#' ∧ c ≠ '?' ∧ c ≠ '/' ∧ isUnsafeUrlChar c = false) ∧
    (∀ c ∈ r.path, c ≠ '#' ∧ c ≠ '?' ∧ isUnsafeUrlChar c = false) ∧
    (∀ c ∈ r.fragment, isUnsafeUrlChar c = false) := by
  simp only [urlsplit] at h
  set u1 : Str := (s.dropWhile isC0OrSpace).filter (fun c => !(isUnsafeUrlChar c))
    with hu1
  have hu1clean : ∀ c ∈ u1, isUnsafeUrlChar c = false := by
    intro c hc
    rw [hu1] at hc
    simpa using (List.mem_filter.mp hc).2
  have hscheme : ∀ c ∈ (splitSchemeOf u1).1,
      c ≠ '#' ∧ c ≠ '?' ∧ isUnsafeUrlChar c = false := by
    rcases splitSchemeOf_spec u1 with ⟨h1, _⟩ | ⟨pre, hall, h1, _⟩
    · rw [h1]
      intro c hc
      simp at hc
    · rw [h1]
      intro c hc
      rw [pyLower] at hc
      obtain ⟨c0, hc0, hce⟩ := List.mem_map.mp hc
      subst hce
      exact pyLowerChar_schemeChar c0 (List.all_eq_true.mp hall c0 hc0)
  obtain ⟨R1, hR1free, hR1⟩ :
      ∃ R1, (∀ c ∈ R1, c ≠ '#' ∧ c ≠ '?') ∧ u1 = R1 ++ (splitSchemeOf u1).2 := by
    rcases splitSchemeOf_spec u1 with ⟨_, h2⟩ | ⟨pre, hall, _, hdec⟩
    · exact ⟨[], by simp, by rw [List.nil_append, h2]⟩
    · refine ⟨pre ++ [':'], ?_, ?_⟩
      · intro c hc
        rcases List.mem_append.mp hc with hx | hx
        · exact schemeChar_ne c (List.all_eq_true.mp hall c hx)
        · simp at hx
          subst hx
          exact ⟨by decide, by decide⟩
      · conv_lhs => rw [hdec]
        simp [List.append_assoc]
  have hu2sub : ∀ c ∈ (splitSchemeOf u1).2, c ∈ u1 := by
    intro c hc
    rcases splitSchemeOf_spec u1 with ⟨_, h2⟩ | ⟨pre, _, _, hdec⟩
    · rw [h2] at hc
      exact hc
    · rw [hdec]
      exact List.mem_append.mpr (Or.inr (List.mem_cons_of_mem _ hc))
  cases hnet : List.isPrefixOf ['/', '/'] (splitSchemeOf u1).2 with
  | false =>
    rw [hnet] at h
    simp only [Bool.false_and, if_neg (by decide : ¬(false = true))] at h
    rw [Option.some.injEq] at h
    subst h
    obtain ⟨hf, hq, hp, hfc⟩ := urlsplit_core_facts u1 R1 (splitSchemeOf u1).2
      hR1 hR1free hu1clean
    exact ⟨hf.symm ▸ rfl, hq.symm ▸ rfl, hscheme, by intro c hc; simp at hc,
      hp, hfc⟩
  | true =>
    rw [hnet] at h
    simp only [Bool.true_and, if_true] at h
    obtain ⟨t2, ht2⟩ := List.isPrefixOf_iff_prefix.mp hnet
    have hdrop2 : ((splitSchemeOf u1).2).drop 2 = t2 := by
      rw [← ht2]
      rfl
    rw [hdrop2] at h
    by_cases hbr : ((t2.takeWhile (fun c => !(netlocDelim c))).contains '[' ^^
        (t2.takeWhile (fun c => !(netlocDelim c))).contains ']') = true
    case pos =>
      rw [if_pos hbr] at h
      exact Option.noConfusion h
    case neg =>
      rw [if_neg hbr] at h
      rw [Option.some.injEq] at h
      subst h
      have hu2dec : (splitSchemeOf u1).2 =
          ('/' :: '/' :: t2.takeWhile (fun c => !(netlocDelim c))) ++
            t2.dropWhile (fun c => !(netlocDelim c)) := by
        rw [← ht2]
        simp [List.takeWhile_append_dropWhile]
      obtain ⟨hf, hq, hp, hfc⟩ := urlsplit_core_facts u1
        (R1 ++ ('/' :: '/' :: t2.takeWhile (fun c => !(netlocDelim c))))
        (t2.dropWhile (fun c => !(netlocDelim c)))
        (by rw [hR1, hu2dec, List.append_assoc])
        (by
          intro c hc
          rcases List.mem_append.mp hc with hx | hx
          · exact hR1free c hx
          · rcases List.mem_cons.mp hx with hx | hx
            · subst hx
              exact ⟨by decide, by decide⟩
            · rcases List.mem_cons.mp hx with hx | hx
              · subst hx
                exact ⟨by decide, by decide⟩
              · exact not_netlocDelim_ne c
                  (@List.mem_takeWhile_imp _ (fun c => !(netlocDelim c)) t2 c hx))
        hu1clean
      refine ⟨hf.symm ▸ rfl, hq.symm ▸ rfl, hscheme, ?_, hp, hfc⟩
      intro c hc
      have hnd := @List.mem_takeWhile_imp _ (fun c => !(netlocDelim c)) t2 c hc
      have hmem : c ∈ u1 := hu2sub c (by
        rw [← ht2]
        exact List.mem_append.mpr (Or.inr ((List.takeWhile_sublist _).subset hc)))
      obtain ⟨h1, h2⟩ := not_netlocDelim_ne c hnd
      refine ⟨h1, h2, ?_, hu1clean c hmem⟩
      intro e
      subst e
      exact absurd hnd (by decide)

theorem mem_intercalate_sep (sep : Char) (ps : List Str) :
    ∀ ch ∈ List.intercalate [sep] ps, ch = sep ∨ ∃ p ∈ ps, ch ∈ p := by
  induction ps with
  | nil =>
    intro ch hch
    simp [List.intercalate] at hch
  | cons a t ih =>
    intro ch hch
    cases t with
    | nil =>
      rw [intercalate_single] at hch
      exact Or.inr ⟨a, by simp, hch⟩
    | cons b r =>
      rw [intercalate_cons_cons] at hch
      rcases List.mem_append.mp hch with hx | hx
      · rcases List.mem_append.mp hx with hy | hy
        · exact Or.inr ⟨a, by simp, hy⟩
        · simp at hy
          exact Or.inl hy
      · rcases ih ch hx with hy | ⟨p, hp, hcp⟩
        · exact Or.inl hy
        · exact Or.inr ⟨p, by simp [hp], hcp⟩

theorem quote_plus_clean (s : Str) :
    ∀ ch ∈ quote_plus s, isUnsafeUrlChar ch = false := by
  intro ch hch
  rcases quote_plus_chars s ch hch with h | h | h
  · apply Bool.eq_false_iff.mpr
    intro hu
    rw [isUnsafeUrlChar] at hu
    simp only [Bool.or_eq_true, decide_eq_true_eq] at hu
    rcases hu with (e | e) | e <;> (subst e; exact absurd h (by decide))
  · subst h
    decide
  · fin_cases h <;> decide

theorem urlencode_chars (l : List (Str × Str)) :
    ∀ ch ∈ urlencode l, ch ≠ '#' ∧ ch ≠ '?' ∧ isUnsafeUrlChar ch = false := by
  intro ch hch
  rw [urlencode] at hch
  rcases mem_intercalate_sep '&' _ ch hch with he | ⟨p, hp, hcp⟩
  · subst he
    exact ⟨by decide, by decide, by decide⟩
  · obtain ⟨kv, _, hkv⟩ := List.mem_map.mp hp
    subst hkv
    rcases List.mem_append.mp hcp with hx | hx
    · exact ⟨quote_plus_ne _ '#' (by decide) (by decide) (by decide) ch hx,
        quote_plus_ne _ '?' (by decide) (by decide) (by decide) ch hx,
        quote_plus_clean _ ch hx⟩
    · rcases List.mem_cons.mp hx with hx | hx
      · subst hx
        exact ⟨by decide, by decide, by decide⟩
      · exact ⟨quote_plus_ne _ '#' (by decide) (by decide) (by decide) ch hx,
          quote_plus_ne _ '?' (by decide) (by decide) (by decide) ch hx,
          quote_plus_clean _ ch hx⟩

theorem urlunsplit_shape (r0 : SplitResult) :
    ∃ B, urlunsplit r0 =
        B ++ ((if r0.query ≠ [] then '?' :: r0.query else []) ++
          (if r0.fragment ≠ [] then '#' :: r0.fragment else [])) ∧
      ∀ c ∈ B, c = ':' ∨ c = '/' ∨ c ∈ r0.scheme ∨ c ∈ r0.netloc ∨ c ∈ r0.path := by
  refine ⟨if r0.scheme ≠ [] then
      r0.scheme ++ ':' ::
        (if r0.netloc ≠ [] ∨
            (r0.scheme ≠ [] ∧ r0.scheme ∈ uses_netloc ∧ r0.path.take 2 ≠ ['/', '/']) then
          '/' :: '/' :: r0.netloc ++
            (if r0.path ≠ [] ∧ r0.path.head? ≠ some '/' then '/' :: r0.path else r0.path)
        else r0.path)
    else
      (if r0.netloc ≠ [] ∨
          (r0.scheme ≠ [] ∧ r0.scheme ∈ uses_netloc ∧ r0.path.take 2 ≠ ['/', '/']) then
        '/' :: '/' :: r0.netloc ++
          (if r0.path ≠ [] ∧ r0.path.head? ≠ some '/' then '/' :: r0.path else r0.path)
      else r0.path), ?_, ?_⟩
  · rw [urlunsplit]
    by_cases hq : r0.query ≠ [] <;> by_cases hf : r0.fragment ≠ [] <;>
      simp [hq, hf, List.append_assoc]
  · intro c hc
    have hu2 : ∀ d ∈ (if r0.netloc ≠ [] ∨
          (r0.scheme ≠ [] ∧ r0.scheme ∈ uses_netloc ∧ r0.path.take 2 ≠ ['/', '/']) then
        '/' :: '/' :: r0.netloc ++
          (if r0.path ≠ [] ∧ r0.path.head? ≠ some '/' then '/' :: r0.path else r0.path)
      else r0.path),
        d = ':' ∨ d = '/' ∨ d ∈ r0.scheme ∨ d ∈ r0.netloc ∨ d ∈ r0.path := by
      intro d hd
      split at hd
      · rcases List.mem_cons.mp hd with hx | hx
        · exact Or.inr (Or.inl hx)
        · rcases List.mem_cons.mp hx with hx | hx
          · exact Or.inr (Or.inl hx)
          · rcases List.mem_append.mp hx with hy | hy
            · exact Or.inr (Or.inr (Or.inr (Or.inl hy)))
            · split at hy
              · rcases List.mem_cons.mp hy with hz | hz
                · exact Or.inr (Or.inl hz)
                · exact Or.inr (Or.inr (Or.inr (Or.inr hz)))
              · exact Or.inr (Or.inr (Or.inr (Or.inr hy)))
      · exact Or.inr (Or.inr (Or.inr (Or.inr hd)))
    split at hc
    · rcases List.mem_append.mp hc with hx | hx
      · exact Or.inr (Or.inr (Or.inl hx))
      · rcases List.mem_cons.mp hx with hx | hx
        · exact Or.inl hx
        · exact hu2 c hx
    · exact hu2 c hc

theorem resplit_qf (B2 q frag : Str)
    (hB : ∀ c ∈ B2, c ≠ '#' ∧ c ≠ '?')
    (hq : ∀ c ∈ q, c ≠ '#' ∧ c ≠ '?') :
    ((B2 ++ ((if q ≠ [] then '?' :: q else []) ++
        (if frag ≠ [] then '#' :: frag else []))).dropWhile (· ≠ '#')).drop 1 = frag ∧
    (((B2 ++ ((if q ≠ [] then '?' :: q else []) ++
        (if frag ≠ [] then '#' :: frag else []))).takeWhile (· ≠ '#')).dropWhile
          (· ≠ '?')).drop 1 = q := by
  have hassoc : B2 ++ ((if q ≠ [] then '?' :: q else []) ++
      (if frag ≠ [] then '#' :: frag else [])) =
      (B2 ++ (if q ≠ [] then '?' :: q else [])) ++
        (if frag ≠ [] then '#' :: frag else []) :=
    (List.append_assoc _ _ _).symm
  rw [hassoc]
  have hBQ : ∀ c ∈ B2 ++ (if q ≠ [] then '?' :: q else []),
      (decide (c ≠ '#')) = true := by
    intro c hc
    rcases List.mem_append.mp hc with hx | hx
    · simpa using (hB c hx).1
    · split at hx
      · rcases List.mem_cons.mp hx with hz | hz
        · subst hz
          decide
        · simpa using (hq c hz).1
      · simp at hx
  constructor
  · rw [dropWhile_append_all _ _ _ hBQ]
    by_cases hf : frag ≠ []
    · rw [if_pos hf, List.dropWhile_cons, if_neg (by simp)]
      rfl
    · rw [if_neg hf]
      simp at hf
      simp [hf]
  · rw [takeWhile_append_all _ _ _ hBQ]
    have htF : List.takeWhile (fun c => decide (c ≠ '#'))
        (if frag ≠ [] then '#' :: frag else []) = [] := by
      by_cases hf : frag ≠ []
      · rw [if_pos hf, List.takeWhile_cons, if_neg (by simp)]
      · rw [if_neg hf]
        rfl
    rw [htF, List.append_nil]
    have hB' : ∀ c ∈ B2, (decide (c ≠ '?')) = true := fun c hc => by
      simpa using (hB c hc).2
    rw [dropWhile_append_all _ _ _ hB']
    by_cases hqe : q ≠ []
    · rw [if_pos hqe, List.dropWhile_cons, if_neg (by simp)]
      rfl
    · rw [if_neg hqe]
      simp at hqe
      simp [hqe]

/-- C1: for any link destination containing utm_source=chatgpt.com, whenever
the rewrite succeeds and the rewritten destination re-parses, the parsed query
of the result is exactly the original parsed query minus every
utm_source=chatgpt.com pair (all other parameters preserved in order), the
fragment is preserved, the result never contains the utm_source=chatgpt.com
parameter, and the concrete example rewrites as claimed. -/
theorem utm_strip_preserves_params (url out : Str) (r r' : SplitResult)
    (hmark : occursIn UTM_MARKER url = true)
    (hr : urlsplit url = some r)
    (hout : strip_chatgpt_utm url = some out)
    (hr' : urlsplit out = some r') :
    parse_qsl r'.query = (parse_qsl r.query).filter (fun kv => !(isBadPair kv)) ∧
    r'.fragment = r.fragment ∧
    ("utm_source".data, "chatgpt.com".data) ∉ parse_qsl r'.query ∧
    strip_chatgpt_utm "http://x/?a=1&utm_source=chatgpt.com&b=2".data =
      some "http://x/?a=1&b=2".data := by
  simp only [strip_chatgpt_utm] at hout
  rw [if_neg (by simp [hmark]), hr] at hout
  rw [Option.some.injEq] at hout
  subst hout
  obtain ⟨_, _, hsch, hnet, hpathF, hfragC⟩ := urlsplit_spec url r hr
  obtain ⟨B, hBeq, hBmem⟩ := urlunsplit_shape ⟨r.scheme, r.netloc, r.path,
    urlencode ((parse_qsl r.query).filter (fun kv => !(isBadPair kv))), r.fragment⟩
  simp only at hBeq hBmem
  rw [hBeq] at hr'
  have hBfree : ∀ c ∈ B, (c ≠ '#' ∧ c ≠ '?') ∧ isUnsafeUrlChar c = false := by
    intro c hc
    rcases hBmem c hc with e | e | e | e | e
    · subst e
      exact ⟨⟨by decide, by decide⟩, by decide⟩
    · subst e
      exact ⟨⟨by decide, by decide⟩, by decide⟩
    · obtain ⟨h1, h2, h3⟩ := hsch c e
      exact ⟨⟨h1, h2⟩, h3⟩
    · obtain ⟨h1, h2, _, h3⟩ := hnet c e
      exact ⟨⟨h1, h2⟩, h3⟩
    · obtain ⟨h1, h2, h3⟩ := hpathF c e
      exact ⟨⟨h1, h2⟩, h3⟩
  have hqf : ∀ c ∈ urlencode ((parse_qsl r.query).filter (fun kv => !(isBadPair kv))),
      c ≠ '#' ∧ c ≠ '?' ∧ isUnsafeUrlChar c = false := urlencode_chars _
  obtain ⟨hf', hq', _, _, _, _⟩ := urlsplit_spec _ r' hr'
  have hstep1 : List.dropWhile isC0OrSpace (B ++
      ((if urlencode ((parse_qsl r.query).filter (fun kv => !(isBadPair kv))) ≠ [] then
          '?' :: urlencode ((parse_qsl r.query).filter (fun kv => !(isBadPair kv)))
        else []) ++
        (if r.fragment ≠ [] then '#' :: r.fragment else []))) =
      List.dropWhile isC0OrSpace B ++
      ((if urlencode ((parse_qsl r.query).filter (fun kv => !(isBadPair kv))) ≠ [] then
          '?' :: urlencode ((parse_qsl r.query).filter (fun kv => !(isBadPair kv)))
        else []) ++
        (if r.fragment ≠ [] then '#' :: r.fragment else [])) := by
    apply dropWhile_append_stop
    intro c hc
    by_cases hqe : urlencode ((parse_qsl r.query).filter (fun kv => !(isBadPair kv))) ≠ []
    · rw [if_pos hqe] at hc
      simp at hc
      subst hc
      decide
    · rw [if_neg hqe, List.nil_append] at hc
      by_cases hfe : r.fragment ≠ []
      · rw [if_pos hfe] at hc
        simp at hc
        subst hc
        decide
      · rw [if_neg hfe] at hc
        simp at hc
  have hstep2 : List.filter (fun c => !(isUnsafeUrlChar c))
      (List.dropWhile isC0OrSpace B ++
      ((if urlencode ((parse_qsl r.query).filter (fun kv => !(isBadPair kv))) ≠ [] then
          '?' :: urlencode ((parse_qsl r.query).filter (fun kv => !(isBadPair kv)))
        else []) ++
        (if r.fragment ≠ [] then '#' :: r.fragment else []))) =
      List.dropWhile isC0OrSpace B ++
      ((if urlencode ((parse_qsl r.query).filter (fun kv => !(isBadPair kv))) ≠ [] then
          '?' :: urlencode ((parse_qsl r.query).filter (fun kv => !(isBadPair kv)))
        else []) ++
        (if r.fragment ≠ [] then '#' :: r.fragment else [])) := by
    apply List.filter_eq_self.mpr
    intro c hc
    rcases List.mem_append.mp hc with hx | hx
    · have : c ∈ B := (List.dropWhile_sublist _).subset hx
      simp [(hBfree c this).2]
    · rcases List.mem_append.mp hx with hy | hy
      · split at hy
        · rcases List.mem_cons.mp hy with hz | hz
          · subst hz
            decide
          · simp [(hqf c hz).2.2]
        · simp at hy
      · split at hy
        · rcases List.mem_cons.mp hy with hz | hz
          · subst hz
            decide
          · simp [hfragC c hz]
        · simp at hy
  rw [hstep1, hstep2] at hf' hq'
  have hB2free : ∀ c ∈ List.dropWhile isC0OrSpace B, c ≠ '#' ∧ c ≠ '?' :=
    fun c hc => (hBfree c ((List.dropWhile_sublist _).subset hc)).1
  obtain ⟨hfrag_eq, hq_eq⟩ := resplit_qf (List.dropWhile isC0OrSpace B)
    (urlencode ((parse_qsl r.query).filter (fun kv => !(isBadPair kv)))) r.fragment
    hB2free (fun c hc => ⟨(hqf c hc).1, (hqf c hc).2.1⟩)
  have hqtotal : r'.query =
      urlencode ((parse_qsl r.query).filter (fun kv => !(isBadPair kv))) :=
    hq'.trans hq_eq
  refine ⟨?_, hf'.trans hfrag_eq, ?_, by decide⟩
  · rw [hqtotal]
    exact parse_qsl_urlencode _
  · rw [hqtotal, parse_qsl_urlencode _]
    intro hmem
    have := (List.mem_filter.mp hmem).2
    exact absurd this (by decide)

/-- Witness for C1 at the example URL. -/
theorem utm_strip_preserves_params_witness :
    parse_qsl (SplitResult.mk "http".data "x".data "/".data "a=1&b=2".data []).query =
      (parse_qsl (SplitResult.mk "http".data "x".data "/".data
        "a=1&utm_source=chatgpt.com&b=2".data []).query).filter
          (fun kv => !(isBadPair kv)) ∧
    (SplitResult.mk "http".data "x".data "/".data "a=1&b=2".data []).fragment =
      (SplitResult.mk "http".data "x".data "/".data
        "a=1&utm_source=chatgpt.com&b=2".data []).fragment ∧
    ("utm_source".data, "chatgpt.com".data) ∉
      parse_qsl (SplitResult.mk "http".data "x".data "/".data "a=1&b=2".data []).query ∧
    strip_chatgpt_utm "http://x/?a=1&utm_source=chatgpt.com&b=2".data =
      some "http://x/?a=1&b=2".data :=
  utm_strip_preserves_params
    "http://x/?a=1&utm_source=chatgpt.com&b=2".data
    "http://x/?a=1&b=2".data
    (SplitResult.mk "http".data "x".data "/".data
      "a=1&utm_source=chatgpt.com&b=2".data [])
    (SplitResult.mk "http".data "x".data "/".data "a=1&b=2".data [])
    (by decide) (by decide) (by decide) (by decide)

end LinkFix
